import Mathlib

/-!
Verification development for the voice-conversation pipeline of the
Cognitive-AI backend.  The definitions below are shallow embeddings of the
Python sources:

* `backend/voice/text_preprocessor.py` — the TTS text sanitizer
  (`remove_markdown`, `normalize_punctuation`, `normalize_whitespace`,
  `split_sentences`, `truncate_for_voice`, `sanitize_for_tts`);
* `backend/voice/audio_utils.py` — `AudioProcessor` base64 helpers and the
  `VADBuffer` class;
* `backend/voice/websocket_handler.py` — the `VoiceSession` /
  `VoiceWebSocketHandler` pipeline orchestration.

Python strings are modelled as `List Char`, byte strings as `List Nat`
(each entry < 256), and wall-clock instants (`time.perf_counter`, a float
of seconds) as exact rationals.  Each `re.sub` call of the source is
modelled by a dedicated matcher fed to a generic leftmost-scan
substitution engine that mirrors `re.sub` semantics: scan left to right,
replace the leftmost match, resume scanning after the replaced span
(replacements are not rescanned).
-/

set_option maxRecDepth 8000

namespace VoiceSpec

/-! ### Character classes (Python `\s`, `\w`, … restricted to ASCII) -/

/-- Backtick, written via its code point. -/
def btick : Char := Char.ofNat 96

/-- Apostrophe, written via its code point. -/
def apos : Char := Char.ofNat 39

/-- Opening curly brace character. -/
def lbraceCh : Char := Char.ofNat 123

/-- Closing curly brace character. -/
def rbraceCh : Char := Char.ofNat 125

/-- Em dash U+2014. -/
def emDash : Char := Char.ofNat 8212

/-- En dash U+2013. -/
def enDash : Char := Char.ofNat 8211

/-- Horizontal ellipsis U+2026. -/
def hellip : Char := Char.ofNat 8230

/-- Left curly double quote U+201C. -/
def lqD : Char := Char.ofNat 8220

/-- Right curly double quote U+201D. -/
def rqD : Char := Char.ofNat 8221

/-- Left curly single quote U+2018. -/
def lqS : Char := Char.ofNat 8216

/-- Right curly single quote U+2019. -/
def rqS : Char := Char.ofNat 8217

/-- Python regex `\s` (ASCII range): space, tab, newline, CR, VT, FF. -/
def isWsChar (c : Char) : Bool :=
  c = ' ' || c = '\t' || c = '\n' || c = '\r' || c = Char.ofNat 11 || c = Char.ofNat 12

/-- Python regex `\w` (ASCII range): letters, digits, underscore. -/
def isWordChar (c : Char) : Bool :=
  c.isAlpha || c.isDigit || c = '_'

/-- The punctuation class `[.,!?;:]` used by `normalize_whitespace`. -/
def isPunctCh (c : Char) : Bool :=
  c = '.' || c = ',' || c = '!' || c = '?' || c = ';' || c = ':'

/-- ASCII letter, the class `[A-Za-z]`. -/
def isAsciiLetter (c : Char) : Bool :=
  c.isAlpha

/-- Sentence-terminal punctuation `[.!?]`. -/
def isTermCh (c : Char) : Bool :=
  c = '.' || c = '!' || c = '?'

/-- Python `str.strip()` (whitespace from both ends). -/
def pyStrip (s : List Char) : List Char :=
  ((s.dropWhile isWsChar).reverse.dropWhile isWsChar).reverse

/-! ### Generic `re.sub` engine

A matcher inspects the input at the current scan position and, on a match,
returns the replacement text together with the input remaining after the
matched span.  All matchers below consume at least one character on a
match, so a fuel equal to the input length suffices for the scan. -/

/-- One `re.sub` pass (unanchored pattern): leftmost match, replace,
continue after the match; the replacement itself is not rescanned. -/
def subScanF (m : List Char → Option (List Char × List Char)) :
    Nat → List Char → List Char
  | 0, s => s
  | _ + 1, [] => []
  | f + 1, c :: cs =>
    match m (c :: cs) with
    | some (rep, rest) => rep ++ subScanF m f rest
    | none => c :: subScanF m f cs

/-- Run a substitution pass over a whole string. -/
def applySub (m : List Char → Option (List Char × List Char))
    (s : List Char) : List Char :=
  subScanF m s.length s

/-- One `re.sub` pass for a `^`-anchored MULTILINE pattern: the matcher is
only consulted at line starts (start of string or right after a newline).
A matching matcher additionally reports whether the scan resumes at a line
start. -/
def subScanMLF (m : List Char → Option (List Char × List Char × Bool)) :
    Nat → Bool → List Char → List Char
  | 0, _, s => s
  | _ + 1, _, [] => []
  | f + 1, atStart, c :: cs =>
    match (if atStart then m (c :: cs) else none) with
    | some (rep, rest, flag) => rep ++ subScanMLF m f flag rest
    | none => c :: subScanMLF m f (decide (c = '\n')) cs

/-- Run a MULTILINE-anchored substitution pass over a whole string. -/
def applySubML (m : List Char → Option (List Char × List Char × Bool))
    (s : List Char) : List Char :=
  subScanMLF m s.length true s

/-! ### Matchers for `remove_markdown` -/

/-- Number of leading `#` characters. -/
def hashCount : List Char → Nat
  | [] => 0
  | c :: r => if c = '#' then hashCount r + 1 else 0

/-- Matcher for `^#{1,6}\s+` (MULTILINE), replaced by the empty string. -/
def mHeader (s : List Char) : Option (List Char × List Char × Bool) :=
  let n := hashCount s
  if 1 ≤ n ∧ n ≤ 6 then
    let t := s.drop n
    let w := t.takeWhile isWsChar
    if w = [] then none
    else some ([], t.dropWhile isWsChar, decide (w.getLast? = some '\n'))
  else none

/-- Closing-delimiter scan for a lazy `(.+?)` group: at least one content
character, none of them a newline (regex `.`), stopping at the first
occurrence of the delimiter `d`.  Returns the captured content and the
input after the closing delimiter. -/
def findLazyCloseAux (d : List Char) (acc : List Char) :
    List Char → Option (List Char × List Char)
  | [] => none
  | c :: r =>
    if d.isPrefixOf (c :: r) then some (acc.reverse, (c :: r).drop d.length)
    else if c = '\n' then none
    else findLazyCloseAux d (c :: acc) r

/-- Entry point of the lazy close scan (first content character consumed
before looking for the closing delimiter). -/
def findLazyClose (d : List Char) : List Char → Option (List Char × List Char)
  | [] => none
  | c :: r => if c = '\n' then none else findLazyCloseAux d [c] r

/-- Matcher for a symmetric-delimiter pattern such as `\*\*(.+?)\*\*` or
`_(.+?)_`, replaced by the captured group. -/
def mDelim (d : List Char) (s : List Char) : Option (List Char × List Char) :=
  if d.isPrefixOf s then
    match findLazyClose d (s.drop d.length) with
    | some (content, rest) => some (content, rest)
    | none => none
  else none

/-- Earliest occurrence of `d`, content unrestricted (regex `[\s\S]*?`),
possibly empty.  Returns the input after the closing delimiter. -/
def findAnyClose (d : List Char) : List Char → Option (List Char)
  | [] => none
  | c :: r =>
    if d.isPrefixOf (c :: r) then some ((c :: r).drop d.length)
    else findAnyClose d r

/-- Matcher for fenced code blocks (three backticks, lazy arbitrary
content, three backticks), replaced by the empty string. -/
def mCodeBlock (s : List Char) : Option (List Char × List Char) :=
  if [btick, btick, btick].isPrefixOf s then
    match findAnyClose [btick, btick, btick] (s.drop 3) with
    | some rest => some ([], rest)
    | none => none
  else none

/-- Matcher for markdown links `\[([^\]]+)\]\([^\)]+\)`, replaced by the
link text. -/
def mLink (s : List Char) : Option (List Char × List Char) :=
  match s with
  | '[' :: r =>
    let content := r.takeWhile (fun c => decide (c ≠ ']'))
    if content = [] then none
    else
      match r.drop content.length with
      | ']' :: '(' :: r2 =>
        let url := r2.takeWhile (fun c => decide (c ≠ ')'))
        if url = [] then none
        else
          match r2.drop url.length with
          | ')' :: r3 => some (content, r3)
          | _ => none
      | _ => none
  | _ => none

/-- Matcher for markdown images `!\[([^\]]*)\]\([^\)]+\)` (alt text may be
empty), removed entirely. -/
def mImage (s : List Char) : Option (List Char × List Char) :=
  match s with
  | '!' :: '[' :: r =>
    let content := r.takeWhile (fun c => decide (c ≠ ']'))
    match r.drop content.length with
    | ']' :: '(' :: r2 =>
      let url := r2.takeWhile (fun c => decide (c ≠ ')'))
      if url = [] then none
      else
        match r2.drop url.length with
        | ')' :: r3 => some ([], r3)
        | _ => none
    | _ => none
  | _ => none

/-- Horizontal-rule characters `[-*_]`. -/
def isHrChar (c : Char) : Bool :=
  c = '-' || c = '*' || c = '_'

/-- Split a whitespace run just before its last newline:
`w = pre ++ nl-suffix` with the suffix starting at the last newline of
`w`.  Only called when `w` contains a newline. -/
def nlSplitLast (w : List Char) : List Char × List Char :=
  let rev := w.reverse
  let a := rev.takeWhile (fun c => decide (c ≠ '\n'))
  let b := (rev.dropWhile (fun c => decide (c ≠ '\n'))).drop 1
  (b.reverse, '\n' :: a.reverse)

/-- Matcher for `^[-*_]{3,}\s*$` (MULTILINE), removed.  The greedy `\s*`
with `$` matches up to the end of input, or backtracks to end just before
the last newline of the trailing whitespace run. -/
def mHr (s : List Char) : Option (List Char × List Char × Bool) :=
  let run := s.takeWhile isHrChar
  if run.length < 3 then none
  else
    let t := s.dropWhile isHrChar
    let w := t.takeWhile isWsChar
    let r := t.dropWhile isWsChar
    if r = [] then some ([], [], false)
    else if w.contains '\n' then
      let p := nlSplitLast w
      some ([], p.2 ++ r, decide (p.1.getLast? = some '\n'))
    else none

/-- Matcher for blockquotes `^>\s*` (MULTILINE), removed. -/
def mBlockquote (s : List Char) : Option (List Char × List Char × Bool) :=
  match s with
  | '>' :: r =>
    let w := r.takeWhile isWsChar
    some ([], r.dropWhile isWsChar,
      if w = [] then false else decide (w.getLast? = some '\n'))
  | _ => none

/-- Matcher for bullet points `^[\s]*[-*+]\s+` (MULTILINE), removed. -/
def mBullet (s : List Char) : Option (List Char × List Char × Bool) :=
  match s.dropWhile isWsChar with
  | c :: r =>
    if c = '-' || c = '*' || c = '+' then
      let w := r.takeWhile isWsChar
      if w = [] then none
      else some ([], r.dropWhile isWsChar, decide (w.getLast? = some '\n'))
    else none
  | [] => none

/-- Matcher for numbered lists `^[\s]*\d+\.\s+` (MULTILINE), removed. -/
def mNumbered (s : List Char) : Option (List Char × List Char × Bool) :=
  let t := s.dropWhile isWsChar
  let ds := t.takeWhile Char.isDigit
  if ds = [] then none
  else
    match t.drop ds.length with
    | '.' :: r =>
      let w := r.takeWhile isWsChar
      if w = [] then none
      else some ([], r.dropWhile isWsChar, decide (w.getLast? = some '\n'))
    | _ => none

/-- Model of `text_preprocessor.remove_markdown`: the thirteen `re.sub`
passes applied in source order. -/
def remove_markdown (s : List Char) : List Char :=
  let s := applySubML mHeader s
  let s := applySub (mDelim ['*', '*', '*']) s
  let s := applySub (mDelim ['*', '*']) s
  let s := applySub (mDelim ['*']) s
  let s := applySub (mDelim ['_', '_', '_']) s
  let s := applySub (mDelim ['_', '_']) s
  let s := applySub (mDelim ['_']) s
  let s := applySub (mDelim [btick]) s
  let s := applySub mCodeBlock s
  let s := applySub mLink s
  let s := applySub mImage s
  let s := applySubML mHr s
  let s := applySubML mBlockquote s
  let s := applySubML mBullet s
  let s := applySubML mNumbered s
  s

/-! ### Matchers for `normalize_punctuation` -/

/-- Python `str.replace(c, rep)`: replace every occurrence of the single
character `c` by `rep`. -/
def replaceAllChar (c : Char) (rep : List Char) (s : List Char) : List Char :=
  s.flatMap (fun x => if x = c then rep else [x])

/-- Matcher for `\.{2,}`, replaced by a single period. -/
def mDotRun (s : List Char) : Option (List Char × List Char) :=
  let run := s.takeWhile (fun c => decide (c = '.'))
  if 2 ≤ run.length then some (['.'], s.dropWhile (fun c => decide (c = '.')))
  else none

/-- Matcher for a wrapped group such as `\(([^)]+)\)`: opening character,
non-empty content free of the closing character, closing character.  The
replacement is assembled by `wrap` from the captured content. -/
def mWrap (op cl : Char) (wrap : List Char → List Char) (s : List Char) :
    Option (List Char × List Char) :=
  match s with
  | c :: r =>
    if c = op then
      let content := r.takeWhile (fun x => decide (x ≠ cl))
      if content = [] then none
      else
        match r.drop content.length with
        | d :: rest => if d = cl then some (wrap content, rest) else none
        | [] => none
    else none
  | [] => none

/-- Matcher for hashtags `#\w+`, removed. -/
def mHashtag (s : List Char) : Option (List Char × List Char) :=
  match s with
  | '#' :: r =>
    let w := r.takeWhile isWordChar
    if w = [] then none else some ([], r.dropWhile isWordChar)
  | _ => none

/-- Matcher for citation markers `\[\d+\]`, removed. -/
def mCitation (s : List Char) : Option (List Char × List Char) :=
  match s with
  | '[' :: r =>
    let ds := r.takeWhile Char.isDigit
    if ds = [] then none
    else
      match r.drop ds.length with
      | ']' :: rest => some ([], rest)
      | _ => none
  | _ => none

/-- Matcher for `\*+`, removed. -/
def mStars (s : List Char) : Option (List Char × List Char) :=
  match s with
  | '*' :: _ => some ([], s.dropWhile (fun c => decide (c = '*')))
  | _ => none

/-- Matcher for URLs `https?://\S+`, removed. -/
def mUrl (s : List Char) : Option (List Char × List Char) :=
  if ['h', 't', 't', 'p'].isPrefixOf s then
    let after :=
      match s.drop 4 with
      | 's' :: ':' :: '/' :: '/' :: r => some r
      | ':' :: '/' :: '/' :: r => some r
      | _ => none
    match after with
    | some r =>
      match r with
      | c :: _ =>
        if isWsChar c then none
        else some ([], r.dropWhile (fun x => decide (¬ isWsChar x)))
      | [] => none
    | none => none
  else none

/-- Scan for a period that has at least one character after it. -/
def dotMidGo : List Char → Bool
  | [] => false
  | c :: r => if c = '.' ∧ r ≠ [] then true else dotMidGo r

/-- Does the list have a period at an index ≥ 1 that is not the last
index?  This is `\S+\.\S+` applied to the part after the `@` of an email
candidate (the run is known whitespace-free). -/
def dotMidOK : List Char → Bool
  | [] => false
  | _ :: r => dotMidGo r

/-- Scan for an `@` whose tail matches `\S+\.\S+`. -/
def emailGo : List Char → Bool
  | [] => false
  | c :: r => if c = '@' then dotMidOK r || emailGo r else emailGo r

/-- Does the whitespace-free run match `\S+@\S+\.\S+` starting at its
first character?  True iff some `@` occurs at index ≥ 1 followed by a
mid-position period. -/
def emailish : List Char → Bool
  | [] => false
  | _ :: r => emailGo r

/-- Matcher for email addresses `\S+@\S+\.\S+`, removed.  The greedy
trailing `\S+` extends the match to the end of the whitespace-free run. -/
def mEmail (s : List Char) : Option (List Char × List Char) :=
  match s with
  | c :: _ =>
    if isWsChar c then none
    else
      let run := s.takeWhile (fun x => decide (¬ isWsChar x))
      if emailish run then some ([], s.dropWhile (fun x => decide (¬ isWsChar x)))
      else none
  | [] => none

/-- Model of `text_preprocessor.normalize_punctuation`, passes in source
order (dash/ellipsis `str.replace` calls, then the `re.sub` calls). -/
def normalize_punctuation (s : List Char) : List Char :=
  let s := replaceAllChar emDash [',', ' '] s
  let s := replaceAllChar enDash [',', ' '] s
  let s := replaceAllChar hellip ['.'] s
  let s := applySub mDotRun s
  let s := applySub (mWrap '(' ')' (fun c => [',', ' '] ++ c ++ [',', ' '])) s
  let s := applySub (mWrap '[' ']' (fun c => [',', ' '] ++ c ++ [',', ' '])) s
  let s := applySub (mWrap lbraceCh rbraceCh (fun c => c)) s
  let s := applySub (mWrap '<' '>' (fun _ => [])) s
  let s := applySub (mWrap '"' '"' (fun c => c)) s
  let s := applySub (mWrap apos apos (fun c => c)) s
  let s := applySub (mWrap lqD rqD (fun c => c)) s
  let s := applySub (mWrap lqS rqS (fun c => c)) s
  let s := applySub mHashtag s
  let s := applySub mCitation s
  let s := applySub mStars s
  let s := applySub mUrl s
  let s := applySub mEmail s
  s

/-! ### Matchers for `normalize_whitespace` -/

/-- The class `[ \t]`. -/
def isSpaceTab (c : Char) : Bool :=
  c = ' ' || c = '\t'

/-- Matcher for `[ \t]+`, replaced by a single space. -/
def mSpaceTab (s : List Char) : Option (List Char × List Char) :=
  match s with
  | c :: _ =>
    if isSpaceTab c then some ([' '], s.dropWhile isSpaceTab) else none
  | [] => none

/-- Matcher for `\n{2,}`, replaced by a single newline. -/
def mNlRun (s : List Char) : Option (List Char × List Char) :=
  let run := s.takeWhile (fun c => decide (c = '\n'))
  if 2 ≤ run.length then
    some (['\n'], s.dropWhile (fun c => decide (c = '\n')))
  else none

/-- Matcher for `\s+([.,!?;:])`, replaced by the punctuation alone. -/
def mWsPunct (s : List Char) : Option (List Char × List Char) :=
  match s with
  | c :: _ =>
    if isWsChar c then
      match s.dropWhile isWsChar with
      | p :: r => if isPunctCh p then some ([p], r) else none
      | [] => none
    else none
  | [] => none

/-- Matcher for `([.,!?;:])([A-Za-z])`, replaced by `\1 \2`. -/
def mPunctLetter (s : List Char) : Option (List Char × List Char) :=
  match s with
  | p :: c :: r =>
    if isPunctCh p && isAsciiLetter c then some ([p, ' ', c], r) else none
  | _ => none

/-- Matcher for `,\s*,+`, replaced by a single comma. -/
def mCommaRun (s : List Char) : Option (List Char × List Char) :=
  match s with
  | ',' :: r =>
    let t := r.dropWhile isWsChar
    match t with
    | ',' :: _ => some ([','], t.dropWhile (fun c => decide (c = ',')))
    | _ => none
  | _ => none

/-- Split on newline characters (Python `text.split` with a newline). -/
def splitNlAux (acc : List Char) : List Char → List (List Char)
  | [] => [acc.reverse]
  | c :: r =>
    if c = '\n' then acc.reverse :: splitNlAux [] r
    else splitNlAux (c :: acc) r

/-- Model of `text_preprocessor.normalize_whitespace`: the five `re.sub`
passes, then per-line strip and space-join of non-empty lines, then a
final strip. -/
def normalize_whitespace (s : List Char) : List Char :=
  let s := applySub mSpaceTab s
  let s := applySub mNlRun s
  let s := applySub mWsPunct s
  let s := applySub mPunctLetter s
  let s := applySub mCommaRun s
  let lines := (splitNlAux [] s).map pyStrip
  let s := List.intercalate [' '] (lines.filter (fun l => decide (l ≠ [])))
  pyStrip s

/-! ### `split_sentences` and `truncate_for_voice` -/

/-- Core of `re.split` with separator `(?<=[.!?])\s+`: a sentence ends at
a terminal character immediately followed by whitespace; the whitespace
run is consumed as the separator. -/
def splitSentF : Nat → List Char → List Char → List (List Char)
  | _, acc, [] => [acc.reverse]
  | 0, acc, s => [acc.reverse ++ s]
  | f + 1, acc, c :: r =>
    if isTermCh c && (match r with | d :: _ => isWsChar d | [] => false) then
      (c :: acc).reverse :: splitSentF f [] (r.dropWhile isWsChar)
    else splitSentF f (c :: acc) r

/-- Model of `text_preprocessor.split_sentences`: split on whitespace that
follows terminal punctuation, strip each piece, drop empties. -/
def split_sentences (s : List Char) : List (List Char) :=
  ((splitSentF s.length [] s).map pyStrip).filter (fun l => decide (l ≠ []))

/-- Python `str.split()` with no argument: maximal whitespace-free runs. -/
def wordsAux (acc : List Char) : List Char → List (List Char)
  | [] => if acc = [] then [] else [acc.reverse]
  | c :: r =>
    if isWsChar c then
      if acc = [] then wordsAux [] r else acc.reverse :: wordsAux [] r
    else wordsAux (c :: acc) r

/-- Python `s.split()` on a modelled string. -/
def pySplitWords (s : List Char) : List (List Char) :=
  wordsAux [] s

/-- Number of words in the Python `str.split()` sense. -/
def countWords (s : List Char) : Nat :=
  (pySplitWords s).length

/-- Does the string end with terminal punctuation (`endswith(('.', '!', '?'))`)? -/
def endsWithTerm (s : List Char) : Bool :=
  match s.getLast? with
  | some c => isTermCh c
  | none => false

/-- The hard-truncation branch of `truncate_for_voice`: first `max_words`
words rejoined, with a period appended when the result does not already
end in terminal punctuation. -/
def hardTruncate (maxWords : Nat) (s : List Char) : List Char :=
  let t := List.intercalate [' '] ((pySplitWords s).take maxWords)
  if endsWithTerm t then t else t ++ ['.']

/-- The sentence-accumulation loop of `truncate_for_voice`. -/
def truncGo (maxWords : Nat) (acc : List (List Char)) (wc : Nat) :
    List (List Char) → List (List Char)
  | [] => acc.reverse
  | sent :: rest =>
    let n := countWords sent
    if wc + n ≤ maxWords then truncGo maxWords (sent :: acc) (wc + n) rest
    else if acc = [] then [hardTruncate maxWords sent] else acc.reverse

/-- Model of `text_preprocessor.truncate_for_voice`. -/
def truncate_for_voice (sentences : List (List Char)) (maxWords : Nat) :
    List Char :=
  if sentences = [] then []
  else List.intercalate [' '] (truncGo maxWords [] 0 sentences)

/-- Model of `text_preprocessor.sanitize_for_tts` (the Python default for
`max_words` is 50; it is passed explicitly here). -/
def sanitize_for_tts (maxWords : Nat) (text : List Char) : List Char :=
  if text = [] then []
  else
    let t := remove_markdown text
    let t := normalize_punctuation t
    let t := normalize_whitespace t
    let sents := split_sentences t
    let t := truncate_for_voice sents maxWords
    let t := pyStrip t
    if t = [] then [] else t

/-! ### VADBuffer (`audio_utils.py`)

Byte strings are `List Nat` (entries < 256), instants are exact rationals
(`time.perf_counter` returns float seconds; float rounding is idealized
away), and the pydub decoding collaborators are an abstract environment. -/

/-- Constructor configuration of `VADBuffer` (all four `__init__`
parameters; the numeric ones are modelled as exact rationals). -/
structure VADConfig where
  silence_threshold_ms : ℚ
  max_duration_s : ℚ
  rms_silence_threshold : ℚ
  sample_rate : ℕ
deriving DecidableEq

/-- The configuration used by `VoiceSession.__init__`
(1000 ms / 6.0 s / 0.01, default sample rate 16000). -/
def sessionVADConfig : VADConfig :=
  ⟨1000, 6, 1 / 100, 16000⟩

/-- Mutable state of a `VADBuffer`. -/
structure VADState where
  config : VADConfig
  chunks : List (List ℕ)
  total_bytes : ℕ
  silence_start_time : Option ℚ
  has_speech : Bool
deriving DecidableEq

/-- A freshly constructed `VADBuffer`. -/
def VADState.mkInit (cfg : VADConfig) : VADState :=
  ⟨cfg, [], 0, none, false⟩

/-- Model of `VADBuffer.clear`. -/
def VADState.clear (st : VADState) : VADState :=
  { st with chunks := [], total_bytes := 0, silence_start_time := none,
            has_speech := false }

/-- The cleared invariant state of the spec: zero fragments, zero bytes,
no silence timestamp, `has_speech = false`. -/
def VADState.isCleared (st : VADState) : Prop :=
  st.chunks = [] ∧ st.total_bytes = 0 ∧ st.silence_start_time = none ∧
    st.has_speech = false

/-- A little-endian signed 16-bit sample from two bytes
(`np.frombuffer(…, dtype=np.int16)` on a little-endian host). -/
def toInt16 (lo hi : ℕ) : ℤ :=
  let v := lo + 256 * hi
  if 32768 ≤ v then (v : ℤ) - 65536 else (v : ℤ)

/-- Decode a byte string into int16 samples; `none` models the
`np.frombuffer` ValueError on a buffer whose size is not a multiple of
the item size. -/
def bytesToSamples : List ℕ → Option (List ℤ)
  | [] => some []
  | [_] => none
  | lo :: hi :: r => (bytesToSamples r).map (fun l => toInt16 lo hi :: l)

/-- Mean of the squared samples after normalization to `[-1, 1]`
(division by 32768). -/
def meanSqNorm (samples : List ℤ) : ℚ :=
  (samples.map (fun s => ((s : ℚ) / 32768) * ((s : ℚ) / 32768))).sum / samples.length

/-- Model of `VADBuffer._is_silence`.  The source compares
`sqrt(mean(sq)) < threshold`; both sides being nonnegative this is
equivalent to `mean(sq) < threshold * threshold`, which keeps the
definition executable over ℚ.  An odd-length buffer makes `np.frombuffer` raise,
which the source's `except` clause turns into "not silence"; an empty
sample array returns True. -/
def is_silence (thr : ℚ) (chunk : List ℕ) : Bool :=
  match bytesToSamples chunk with
  | none => false
  | some [] => true
  | some samples => decide (meanSqNorm samples < thr * thr)

/-- Model of `VADBuffer.add_chunk`; `now` is the current
`time.perf_counter()` value in seconds. -/
def add_chunk (now : ℚ) (audio : List ℕ) (st : VADState) : VADState :=
  let st := { st with chunks := st.chunks ++ [audio],
                      total_bytes := st.total_bytes + audio.length }
  if is_silence st.config.rms_silence_threshold audio then
    match st.silence_start_time with
    | none => { st with silence_start_time := some now }
    | some _ => st
  else { st with silence_start_time := none, has_speech := true }

/-- Model of `VADBuffer.should_trigger` at instant `now`. -/
def should_trigger (now : ℚ) (st : VADState) : Bool :=
  if st.has_speech = false then false
  else if (match st.silence_start_time with
           | some t0 =>
             decide (st.config.silence_threshold_ms ≤ (now - t0) * 1000)
           | none => false) then true
  else if decide (st.config.max_duration_s ≤ (st.total_bytes : ℚ) / 3200) then
    true
  else false

/-- Error raised out of `get_audio_and_reset`: the source raises
`ValueError` when every decode strategy fails (the spec's
`AudioDecodeError`). -/
inductive AudioError where
  | decodeError
deriving DecidableEq

/-- Abstract pydub decoding collaborators: the four decode attempts of
`get_audio_and_reset` (WebM from memory, auto-detect from memory, WebM
from the temp file, auto-detect from the temp file) and the WAV export. -/
structure DecodeEnv (α : Type) where
  webmMem : List ℕ → Option α
  autoMem : List ℕ → Option α
  webmFile : List ℕ → Option α
  autoFile : List ℕ → Option α
  exportWav : α → List ℕ

/-- Model of `VADBuffer.get_audio_and_reset`: returns the result (WAV
bytes, or the decode error) together with the buffer state afterwards.
An empty buffer returns `b''` untouched; fewer than 100 combined bytes
clears and returns `b''`; otherwise the four decode strategies are tried
in order, the buffer being cleared both on success and (in the `except`
clause) before the error is re-raised. -/
def get_audio_and_reset {α : Type} (env : DecodeEnv α) (st : VADState) :
    Except AudioError (List ℕ) × VADState :=
  if st.chunks = [] then (.ok [], st)
  else
    let combined := st.chunks.flatten
    if combined.length < 100 then (.ok [], st.clear)
    else
      match env.webmMem combined <|> env.autoMem combined <|>
            env.webmFile combined <|> env.autoFile combined with
      | some audio => (.ok (env.exportWav audio), st.clear)
      | none => (.error .decodeError, st.clear)

/-- Buffer states reachable through the `VADBuffer` API. -/
inductive VADReachable : VADState → Prop
  | mkInit (cfg : VADConfig) : VADReachable (VADState.mkInit cfg)
  | add (now : ℚ) (audio : List ℕ) {st : VADState} :
      VADReachable st → VADReachable (add_chunk now audio st)
  | reset {α : Type} (env : DecodeEnv α) {st : VADState} :
      VADReachable st → VADReachable (get_audio_and_reset env st).2
  | clearStep {st : VADState} : VADReachable st → VADReachable st.clear

/-! ### Base64 (`AudioProcessor.base64_to_bytes` / `bytes_to_base64`)

The source delegates to `base64.b64encode` / `base64.b64decode`; the
decoder below models CPython `binascii.a2b_base64` in its default
non-strict mode: characters outside the alphabet are skipped, a padding
character with an empty pending group is skipped, padding after two or
three pending characters finishes the decode (two pending characters
additionally require a second padding character, with only non-alphabet
characters allowed before it), and anything else fails. -/

/-- The standard base64 alphabet. -/
def b64Chars : List Char :=
  "ABCDEFGHIJKLMNOPQRSTUVWXYZabcdefghijklmnopqrstuvwxyz0123456789+/".data

/-- Sextet-to-character table of the encoder. -/
def toB64Char (n : ℕ) : Char :=
  b64Chars.getD n '/'

/-- Character-to-sextet table of the decoder; `none` for characters
outside the alphabet. -/
def fromB64Char (c : Char) : Option ℕ :=
  if 'A' ≤ c ∧ c ≤ 'Z' then some (c.toNat - 65)
  else if 'a' ≤ c ∧ c ≤ 'z' then some (c.toNat - 97 + 26)
  else if '0' ≤ c ∧ c ≤ '9' then some (c.toNat - 48 + 52)
  else if c = '+' then some 62
  else if c = '/' then some 63
  else none

/-- Model of `base64.b64encode` (grouping three bytes into four
characters, with `=` padding). -/
def b64EncodeGroups : List ℕ → List Char
  | [] => []
  | [a] => [toB64Char (a / 4), toB64Char (a % 4 * 16), '=', '=']
  | [a, b] =>
    [toB64Char (a / 4), toB64Char (a % 4 * 16 + b / 16),
     toB64Char (b % 16 * 4), '=']
  | a :: b :: c :: r =>
    toB64Char (a / 4) :: toB64Char (a % 4 * 16 + b / 16) ::
      toB64Char (b % 16 * 4 + c / 64) :: toB64Char (c % 64) ::
      b64EncodeGroups r

/-- Model of `AudioProcessor.bytes_to_base64`. -/
def bytes_to_base64 (bs : List ℕ) : List Char :=
  b64EncodeGroups bs

/-- The three bytes of a complete base64 quad. -/
def quadBytes (a b c d : ℕ) : List ℕ :=
  [a * 4 + b / 16, b % 16 * 16 + c / 4, c % 4 * 64 + d]

/-- Decoding loop of `binascii.a2b_base64` (non-strict mode): `acc` holds
the output bytes, `quad` the pending sextets of the current group
(`quad_pos` in the C source), `pads` the running count of padding
characters since the last data character.  Characters outside the
alphabet are skipped; a `=` is skipped unless at least two data
characters are pending and `quad_pos + pads` reaches four, which emits
the pending bytes and terminates the decode; at the end of input a
non-empty pending group is an error. -/
def b64DecodeGo (acc : List ℕ) (quad : List ℕ) (pads : ℕ) :
    List Char → Option (List ℕ)
  | [] =>
    match quad with
    | [] => some acc
    | _ => none
  | c :: r =>
    match fromB64Char c with
    | some v =>
      match quad with
      | [a, b, cq] => b64DecodeGo (acc ++ quadBytes a b cq v) [] 0 r
      | _ => b64DecodeGo acc (quad ++ [v]) 0 r
    | none =>
      if c = '=' then
        match quad with
        | [a, b] =>
          if 4 ≤ 2 + (pads + 1) then some (acc ++ [a * 4 + b / 16])
          else b64DecodeGo acc quad (pads + 1) r
        | [a, b, cq] =>
          some (acc ++ [a * 4 + b / 16, b % 16 * 16 + cq / 4])
        | _ => b64DecodeGo acc quad (pads + 1) r
      else b64DecodeGo acc quad pads r

/-- Model of `AudioProcessor.base64_to_bytes`: on any `binascii` failure
the source logs and raises `ValueError("Invalid base64 audio data")`. -/
def base64_to_bytes (s : List Char) : Except String (List ℕ) :=
  match b64DecodeGo [] [] 0 s with
  | some bs => .ok bs
  | none => .error "Invalid base64 audio data"

/-- The standard well-formedness notion of a base64 string, stated from
the spec's words ("valid base64"): length a multiple of four, data
characters from the alphabet followed by at most two `=` padding
characters. -/
def wellFormedB64 (s : List Char) : Bool :=
  decide (s.length % 4 = 0) &&
    (let data := s.takeWhile (fun c => (fromB64Char c).isSome)
     let pad := s.drop data.length
     pad.all (fun c => decide (c = '=')) && decide (pad.length ≤ 2))

/-! ### Concurrency guard of the pipeline (`websocket_handler.py`)

`_process_audio_buffer` / `_process_complete_audio` are coroutines run as
asyncio tasks on one event loop: control only transfers at `await`
points.  Both begin with `if session._is_processing: return` followed by
`async with session._processing_lock: session._is_processing = True`;
when the lock is free `Lock.acquire` returns synchronously, so the check,
the acquisition and the flag assignment form one atomic segment.  The
body is a sequence of atomic segments separated by its awaits, and the
`finally` clause (`session._is_processing = False`) together with the
lock release at the end of the `async with` block is again one atomic
segment.  The model below interleaves two such tasks on one session under
an arbitrary scheduler. -/

/-- Phase of one pipeline task: about to run the guarded entry, executing
the `k`-th atomic segment of the body, or finished (`ran` records whether
the body was executed or the trigger was dropped). -/
inductive TaskPhase where
  | entry
  | body (k : ℕ)
  | finished (ran : Bool)
deriving DecidableEq

/-- Shared session state plus the phases of two competing tasks. -/
structure PipeSys where
  isProcessing : Bool
  lockHeld : Bool
  t0 : TaskPhase
  t1 : TaskPhase
deriving DecidableEq

/-- The phase of task `i`. -/
def PipeSys.task (s : PipeSys) (i : Bool) : TaskPhase :=
  if i then s.t1 else s.t0

/-- Replace the phase of task `i`. -/
def PipeSys.setTask (s : PipeSys) (i : Bool) (p : TaskPhase) : PipeSys :=
  if i then { s with t1 := p } else { s with t0 := p }

/-- Is a task inside the guarded body? -/
def TaskPhase.isBody : TaskPhase → Bool
  | .body _ => true
  | _ => false

/-- One atomic step of task `i` (`n` is the number of body segments):
* entry with `_is_processing` set → drop (log and return);
* entry with the flag clear and the lock free → acquire the lock, set the
  flag, start the body (one atomic segment, no await in between);
* entry with the flag clear but the lock held → the task would suspend on
  `Lock.acquire`; no progress (this situation is unreachable);
* body segment → advance; the last segment runs the `finally` clause,
  clearing the flag and releasing the lock atomically;
* finished → no effect. -/
def stepTask (n : ℕ) (s : PipeSys) (i : Bool) : PipeSys :=
  match s.task i with
  | .entry =>
    if s.isProcessing then s.setTask i (.finished false)
    else if s.lockHeld then s
    else ({ s with lockHeld := true, isProcessing := true } : PipeSys).setTask i (.body 0)
  | .body k =>
    if k + 1 < n then s.setTask i (.body (k + 1))
    else ({ s with isProcessing := false, lockHeld := false } : PipeSys).setTask i (.finished true)
  | .finished _ => s

/-- Run a schedule (list of task choices) from a state. -/
def runSched (n : ℕ) : List Bool → PipeSys → PipeSys
  | [], s => s
  | i :: rest, s => runSched n rest (stepTask n s i)

/-- Both tasks triggered, neither started, guard clear: the state right
after two back-to-back triggers were turned into tasks. -/
def initSys : PipeSys :=
  ⟨false, false, .entry, .entry⟩

/-! ### WebSocket handler pipeline (`websocket_handler.py`) -/

/-- Result dictionary of `stt_model.transcribe_sync`. -/
structure SttResult where
  text : List Char
  language : List Char
deriving DecidableEq

/-- The `self.stats` dictionary of a `VoiceSession`. -/
structure SessionStats where
  messages_sent : ℕ
  messages_received : ℕ
  transcriptions : ℕ
  syntheses : ℕ
  errors : ℕ
  total_latency_ms : List ℚ
deriving DecidableEq

/-- All-zero statistics of a fresh session. -/
def SessionStats.mkInit : SessionStats :=
  ⟨0, 0, 0, 0, 0, []⟩

/-- Mutable state of a `VoiceSession`. -/
structure SessionState where
  conversation_id : Option (List Char)
  is_active : Bool
  current_state : String
  vad : VADState
  isProcessingFlag : Bool
  stats : SessionStats
deriving DecidableEq

/-- A freshly accepted session (`VoiceSession.__init__`). -/
def SessionState.mkInit : SessionState :=
  ⟨none, true, "idle", VADState.mkInit sessionVADConfig, false, SessionStats.mkInit⟩

/-- Messages the server sends over the WebSocket. -/
inductive ServerMsg where
  | status (state : String) (message : Option String)
  | transcript (text : List Char) (language : List Char)
  | response (text : List Char)
  | audio (data : List ℕ)
  | errorMsg (message : String) (code : Option String)
  | conversationUpdate (conversation_id : List Char) (title : Option (List Char))
  | pong
deriving DecidableEq

/-- Model of `VoiceSession.send_status`: updates `current_state` and
appends the status message. -/
def sendStatus (st : SessionState) (msgs : List ServerMsg)
    (state : String) (message : String) : SessionState × List ServerMsg :=
  ({ st with current_state := state }, msgs ++ [.status state (some message)])

/-- Model of `VoiceSession.send_error`: appends the error message and
bumps the error counter. -/
def sendError (st : SessionState) (msgs : List ServerMsg)
    (message : String) : SessionState × List ServerMsg :=
  ({ st with stats := { st.stats with errors := st.stats.errors + 1 } },
   msgs ++ [.errorMsg message none])

/-- Model of `VoiceSession.send_transcript`. -/
def sendTranscript (st : SessionState) (msgs : List ServerMsg)
    (text language : List Char) : SessionState × List ServerMsg :=
  ({ st with stats :=
      { st.stats with transcriptions := st.stats.transcriptions + 1 } },
   msgs ++ [.transcript text language])

/-- Model of `VoiceSession.send_audio`. -/
def sendAudio (st : SessionState) (msgs : List ServerMsg)
    (data : List ℕ) : SessionState × List ServerMsg :=
  ({ st with stats := { st.stats with syntheses := st.stats.syntheses + 1 } },
   msgs ++ [.audio data])

/-- External collaborators of one pipeline run.  Collaborator calls that
the cited code wraps in try/except return `Except`; the others are total
functions.  `llmMsgs` are the `conversation_update` messages
`_process_with_llm` may emit on its success path. -/
structure PipelineEnv (α : Type) where
  decode : DecodeEnv α
  stt_available : Bool
  resample : List ℕ → Except String (List ℕ)
  transcribe : List ℕ → Except String SttResult
  llm : List Char → Option (List Char)
  llmMsgs : List Char → List ServerMsg
  tts_available : Bool
  synthesize : List Char → List ℕ
  validate_format : List ℕ → Bool

/-- Outcome of one pipeline-run call: session afterwards, messages sent,
and whether the reasoning engine / the TTS engine were invoked. -/
structure RunOut where
  session : SessionState
  msgs : List ServerMsg
  invokedLLM : Bool
  invokedTTS : Bool
deriving DecidableEq

/-- Exit helper: the `finally` clause resets `_is_processing`. -/
def finishRun (st : SessionState) (msgs : List ServerMsg)
    (llm tts : Bool) : RunOut :=
  ⟨{ st with isProcessingFlag := false }, msgs, llm, tts⟩

/-- Shared tail of both pipeline bodies, from the STT call on (source
lines 350–432 and 501–583 are identical): transcribe, bail out on an
empty transcript, send the transcript, run the LLM, send the response,
synthesize unless TTS is unavailable, send the audio, record latency. -/
def pipelineAfterResample {α : Type} (env : PipelineEnv α) (elapsed : ℚ)
    (st : SessionState) (msgs : List ServerMsg) (audio : List ℕ) : RunOut :=
  match env.transcribe audio with
  | .error _ =>
    let (st, msgs) := sendError st msgs "Speech recognition failed"
    let (st, msgs) := sendStatus st msgs "idle" "Ready"
    finishRun st msgs false false
  | .ok tr =>
    let text := pyStrip tr.text
    if text = [] then
      let (st, msgs) := sendStatus st msgs "idle" "No speech detected"
      finishRun st msgs false false
    else
      let (st, msgs) := sendTranscript st msgs text tr.language
      let (st, msgs) := sendStatus st msgs "processing" "Generating response"
      match env.llm text with
      | none =>
        let (st, msgs) := sendError st msgs "Failed to generate response"
        finishRun st msgs true false
      | some resp =>
        let msgs := msgs ++ env.llmMsgs text ++ [.response resp]
        let (st, msgs) := sendStatus st msgs "speaking" "Synthesizing speech"
        if env.tts_available = false then
          let (st, msgs) := sendStatus st msgs "idle" "Ready"
          finishRun st msgs true false
        else
          let clean := sanitize_for_tts 50 resp
          let out := env.synthesize clean
          let (st, msgs) := sendAudio st msgs out
          let st := { st with stats :=
            { st.stats with total_latency_ms :=
                st.stats.total_latency_ms ++ [elapsed] } }
          let (st, msgs) := sendStatus st msgs "idle" "Ready for next message"
          finishRun st msgs true true

/-- Model of `VoiceWebSocketHandler._process_audio_buffer`: guard check,
status update, buffer extraction (its failure hits the outer except
clause: error message, buffer clear, idle status), minimum-size check,
STT availability, resampling, then the shared tail. -/
def processAudioBuffer {α : Type} (env : PipelineEnv α) (elapsed : ℚ)
    (st : SessionState) : RunOut :=
  if st.isProcessingFlag then ⟨st, [], false, false⟩
  else
    let st := { st with isProcessingFlag := true }
    let (st, msgs) := sendStatus st [] "processing" "Transcribing audio"
    let r := get_audio_and_reset env.decode st.vad
    let st := { st with vad := r.2 }
    match r.1 with
    | .error _ =>
      let (st, msgs) := sendError st msgs "Processing error"
      let st := { st with vad := st.vad.clear }
      let (st, msgs) := sendStatus st msgs "idle" "Ready"
      finishRun st msgs false false
    | .ok audio =>
      if audio.length < 1000 then
        let (st, msgs) := sendStatus st msgs "idle" "Audio too short"
        finishRun st msgs false false
      else if env.stt_available = false then
        let (st, msgs) := sendError st msgs "STT model not available"
        finishRun st msgs false false
      else
        match env.resample audio with
        | .error _ =>
          let (st, msgs) := sendError st msgs "Audio processing failed"
          let (st, msgs) := sendStatus st msgs "idle" "Ready"
          finishRun st msgs false false
        | .ok audio2 => pipelineAfterResample env elapsed st msgs audio2

/-- Model of `VoiceWebSocketHandler._process_complete_audio`: like the
buffer path but on a directly supplied recording, with the extra
`validate_format` check after resampling. -/
def processCompleteAudio {α : Type} (env : PipelineEnv α) (elapsed : ℚ)
    (st : SessionState) (audio : List ℕ) : RunOut :=
  if st.isProcessingFlag then ⟨st, [], false, false⟩
  else
    let st := { st with isProcessingFlag := true }
    let (st, msgs) := sendStatus st [] "processing" "Transcribing audio"
    if audio.length < 1000 then
      let (st, msgs) := sendStatus st msgs "idle" "Audio too short"
      finishRun st msgs false false
    else if env.stt_available = false then
      let (st, msgs) := sendError st msgs "STT model not available"
      finishRun st msgs false false
    else
      match env.resample audio with
      | .error _ =>
        let (st, msgs) := sendError st msgs "Audio processing failed"
        let (st, msgs) := sendStatus st msgs "idle" "Ready"
        finishRun st msgs false false
      | .ok audio2 =>
        if env.validate_format audio2 = false then
          let (st, msgs) := sendError st msgs "Audio resampling failed. Please try again."
          let (st, msgs) := sendStatus st msgs "idle" "Ready"
          finishRun st msgs false false
        else pipelineAfterResample env elapsed st msgs audio2

/-- Client → server message (`type`, optional base64 `data`, `complete`
flag; absent fields model as `none` / `false`). -/
structure ClientMsg where
  mtype : String
  data : Option (List Char)
  complete : Bool
deriving DecidableEq

/-- A coroutine spawned with `asyncio.create_task`. -/
inductive SpawnedTask where
  | processBuffer
  | processComplete (audio : List ℕ)
deriving DecidableEq

/-- Model of `VoiceWebSocketHandler._handle_audio`: missing or empty
`data` is logged and ignored; a base64 `ValueError` is caught by the
method's own except clause and reported; a complete recording spawns the
complete-audio task; otherwise the chunk feeds the VAD buffer, the
status switches to listening if needed, and a VAD trigger spawns the
buffer task. -/
def handleAudio (now : ℚ) (st : SessionState) (msg : ClientMsg) :
    SessionState × List ServerMsg × List SpawnedTask :=
  match msg.data with
  | none => (st, [], [])
  | some d =>
    if d = [] then (st, [], [])
    else
      match base64_to_bytes d with
      | .error _ =>
        let (st, msgs) := sendError st [] "Audio processing error"
        (st, msgs, [])
      | .ok audio =>
        if msg.complete then
          let (st, msgs) := sendStatus st [] "processing" "Processing audio"
          (st, msgs, [.processComplete audio])
        else
          let st := { st with vad := add_chunk now audio st.vad }
          let (st, msgs) :=
            if st.current_state ≠ "listening" then
              sendStatus st [] "listening" "Receiving audio"
            else (st, [])
          if should_trigger now st.vad then (st, msgs, [.processBuffer])
          else (st, msgs, [])

/-- Model of the message dispatch in
`VoiceWebSocketHandler.handle_connection`: the received-message counter
is bumped, then the message is dispatched on its `type` (the stop path is
not expanded here: it runs `_process_audio_buffer` inline, which the
dispatch reports as a spawned task for uniformity; unknown types are only
logged). -/
def handleMessage (now : ℚ) (st : SessionState) (msg : ClientMsg) :
    SessionState × List ServerMsg × List SpawnedTask :=
  let st := { st with stats :=
    { st.stats with messages_received := st.stats.messages_received + 1 } }
  if msg.mtype = "audio" then handleAudio now st msg
  else if msg.mtype = "stop" then
    if 0 < st.vad.chunks.length then (st, [], [.processBuffer])
    else
      let (st, msgs) := sendStatus st [] "idle" "Ready"
      (st, msgs, [])
  else if msg.mtype = "ping" then (st, [.pong], [])
  else (st, [], [])

/-! ## Supporting lemmas: VADBuffer -/

/-- `clear` establishes the cleared invariant state. -/
theorem VADState.clear_isCleared (st : VADState) : st.clear.isCleared := by
  simp [VADState.clear, VADState.isCleared]

/-- `add_chunk` appends the fragment whatever the silence classification. -/
theorem add_chunk_chunks (now : ℚ) (a : List ℕ) (st : VADState) :
    (add_chunk now a st).chunks = st.chunks ++ [a] := by
  unfold add_chunk
  dsimp only
  split
  · split <;> rfl
  · rfl

/-- `add_chunk` keeps the configuration. -/
theorem add_chunk_config (now : ℚ) (a : List ℕ) (st : VADState) :
    (add_chunk now a st).config = st.config := by
  unfold add_chunk
  dsimp only
  split
  · split <;> rfl
  · rfl

/-- A silent chunk never sets `has_speech`. -/
theorem add_chunk_silent_has_speech (now : ℚ) (a : List ℕ) (st : VADState)
    (h : is_silence st.config.rms_silence_threshold a = true) :
    (add_chunk now a st).has_speech = st.has_speech := by
  unfold add_chunk
  dsimp only
  rw [if_pos h]
  split <;> rfl

/-- Without captured speech the trigger is never armed. -/
theorem should_trigger_of_no_speech (now : ℚ) (st : VADState)
    (h : st.has_speech = false) : should_trigger now st = false := by
  unfold should_trigger
  rw [if_pos h]

/-- On a non-empty buffer, `get_audio_and_reset` always clears. -/
theorem get_audio_and_reset_snd_clear {α : Type} (env : DecodeEnv α)
    (st : VADState) (hc : st.chunks ≠ []) :
    (get_audio_and_reset env st).2 = st.clear := by
  unfold get_audio_and_reset
  rw [if_neg hc]
  dsimp only
  split
  · rfl
  · split <;> rfl

/-- A reachable buffer with no fragments is in the cleared state. -/
theorem vadReachable_empty_cleared {st : VADState} (h : VADReachable st) :
    st.chunks = [] → st.isCleared := by
  induction h with
  | mkInit cfg => intro _; simp [VADState.mkInit, VADState.isCleared]
  | add now audio h ih =>
    intro he
    rw [add_chunk_chunks] at he
    simp at he
  | reset env h ih =>
    rename_i st'
    by_cases hc : st'.chunks = []
    · have hres : (get_audio_and_reset env st').2 = st' := by
        simp [get_audio_and_reset, hc]
      rw [hres]
      exact ih
    · intro _
      rw [get_audio_and_reset_snd_clear env st' hc]
      exact VADState.clear_isCleared _
  | clearStep h ih => intro _; exact VADState.clear_isCleared _

/-! ## C1 -/

/-- C1: for every reachable `VADBuffer` state and every call to
`get_audio_and_reset()` — whatever the outcome (success, empty buffer,
too-small input, or decode failure on every fallback strategy) — the
buffer afterwards satisfies the cleared invariant: zero fragments, zero
total bytes, no silence-start timestamp, and `has_speech = false`. -/
theorem vad_get_audio_and_reset_clears {α : Type} (env : DecodeEnv α)
    {st : VADState} (h : VADReachable st) :
    ((get_audio_and_reset env st).2).isCleared := by
  by_cases hc : st.chunks = []
  · have he : (get_audio_and_reset env st).2 = st := by
      simp [get_audio_and_reset, hc]
    rw [he]
    exact vadReachable_empty_cleared h hc
  · rw [get_audio_and_reset_snd_clear env st hc]
    exact VADState.clear_isCleared _

/-- An all-failing decode environment over a trivial audio type. -/
def unitDecodeEnv : DecodeEnv Unit :=
  ⟨fun _ => none, fun _ => none, fun _ => none, fun _ => none, fun _ => []⟩

/-- Witness for C1 at a concrete reachable buffer. -/
theorem vad_get_audio_and_reset_clears_witness :
    ((get_audio_and_reset unitDecodeEnv
        (add_chunk 0 [0, 0] (VADState.mkInit sessionVADConfig))).2).isCleared :=
  vad_get_audio_and_reset_clears unitDecodeEnv
    (VADReachable.add 0 [0, 0] (VADReachable.mkInit sessionVADConfig))

/-! ## C7 -/

/-- C7: on a non-empty buffer whose combined bytes meet the 100-byte
floor, if all decode fallback strategies fail (in-memory WebM decode,
in-memory auto-detection, and the file-backed retry of both), the call
raises the decode error and the buffer is cleared before the error
propagates. -/
theorem vad_all_decode_strategies_fail {α : Type} (env : DecodeEnv α)
    (st : VADState) (h1 : st.chunks ≠ [])
    (h2 : 100 ≤ st.chunks.flatten.length)
    (h3 : env.webmMem st.chunks.flatten = none)
    (h4 : env.autoMem st.chunks.flatten = none)
    (h5 : env.webmFile st.chunks.flatten = none)
    (h6 : env.autoFile st.chunks.flatten = none) :
    get_audio_and_reset env st = (.error .decodeError, st.clear) ∧
      ((get_audio_and_reset env st).2).isCleared := by
  have hmain : get_audio_and_reset env st = (.error .decodeError, st.clear) := by
    unfold get_audio_and_reset
    rw [if_neg h1]
    dsimp only
    rw [if_neg (Nat.not_lt.mpr h2), h3, h4, h5, h6]
    rfl
  exact ⟨hmain, by rw [hmain]; exact VADState.clear_isCleared st⟩

/-- A concrete buffer holding one 100-byte fragment. -/
def vadState100 : VADState :=
  { config := sessionVADConfig, chunks := [List.replicate 100 1],
    total_bytes := 100, silence_start_time := none, has_speech := true }

/-- Witness for C7 at a concrete buffer and environment. -/
theorem vad_all_decode_strategies_fail_witness :
    get_audio_and_reset unitDecodeEnv vadState100 =
      (.error .decodeError, vadState100.clear) ∧
      ((get_audio_and_reset unitDecodeEnv vadState100).2).isCleared :=
  vad_all_decode_strategies_fail unitDecodeEnv vadState100 (by decide)
    (by decide) rfl rfl rfl rfl

/-! ## C3 -/

/-- C3: `should_trigger()` is true exactly when `has_speech` holds and
either the time elapsed since the recorded silence-start instant is at
least the configured silence threshold (in milliseconds) or the duration
estimate `total_bytes / 3200` is at least the configured maximum; in
particular, with speech captured, a silence timestamp set and the byte
estimate below the maximum, elapsed silence of threshold − 1 ms does not
trigger while threshold ms does. -/
theorem vad_should_trigger_iff :
    (∀ (st : VADState) (now : ℚ),
      should_trigger now st = true ↔
        st.has_speech = true ∧
          ((∃ t0, st.silence_start_time = some t0 ∧
              st.config.silence_threshold_ms ≤ (now - t0) * 1000) ∨
            st.config.max_duration_s ≤ (st.total_bytes : ℚ) / 3200)) ∧
    (∀ (st : VADState) (t0 : ℚ),
      st.has_speech = true → st.silence_start_time = some t0 →
      (st.total_bytes : ℚ) / 3200 < st.config.max_duration_s →
      should_trigger (t0 + (st.config.silence_threshold_ms - 1) / 1000) st = false ∧
        should_trigger (t0 + st.config.silence_threshold_ms / 1000) st = true) := by
  constructor
  · intro st now
    unfold should_trigger
    rcases hs : st.has_speech with _ | _
    · simp [hs]
    · rw [if_neg (by simp [hs])]
      rcases hso : st.silence_start_time with _ | t0
      · by_cases h2 : st.config.max_duration_s ≤ (st.total_bytes : ℚ) / 3200 <;>
          simp [h2]
      · by_cases h1 : st.config.silence_threshold_ms ≤ (now - t0) * 1000 <;>
          by_cases h2 : st.config.max_duration_s ≤ (st.total_bytes : ℚ) / 3200 <;>
          simp [h1, h2]
  · intro st t0 hs hso hlt
    have harith1 : (t0 + (st.config.silence_threshold_ms - 1) / 1000 - t0) * 1000 =
        st.config.silence_threshold_ms - 1 := by ring
    have harith2 : (t0 + st.config.silence_threshold_ms / 1000 - t0) * 1000 =
        st.config.silence_threshold_ms := by ring
    constructor
    · unfold should_trigger
      rw [if_neg (by simp [hs]), hso]
      dsimp only
      rw [harith1]
      rw [if_neg (by simp only [decide_eq_true_eq]; intro hcontra; linarith)]
      rw [if_neg (by simp only [decide_eq_true_eq]; exact not_le.mpr hlt)]
    · unfold should_trigger
      rw [if_neg (by simp [hs]), hso]
      dsimp only
      rw [harith2]
      rw [if_pos (by simp)]

/-- A concrete buffer with captured speech and a silence timestamp. -/
def vadStateSpeech : VADState :=
  { config := sessionVADConfig, chunks := [[1]], total_bytes := 1,
    silence_start_time := some 0, has_speech := true }

/-- Witness for C3 at a concrete buffer: 999 ms of silence does not
trigger, 1000 ms does. -/
theorem vad_should_trigger_iff_witness :
    should_trigger ((0 : ℚ) + ((1000 : ℚ) - 1) / 1000) vadStateSpeech = false ∧
      should_trigger ((0 : ℚ) + (1000 : ℚ) / 1000) vadStateSpeech = true := by
  have h := vad_should_trigger_iff.2 vadStateSpeech 0 rfl rfl (by norm_num [vadStateSpeech, sessionVADConfig])
  exact h

/-! ## C4 -/

/-- Feed a list of `(instant, fragment)` pairs through `add_chunk`. -/
def feedChunks (l : List (ℚ × List ℕ)) (st : VADState) : VADState :=
  l.foldl (fun s p => add_chunk p.1 p.2 s) st

/-- C4: feeding any sequence of fragments that are all classified as
silence into a buffer without captured speech leaves `has_speech` false,
and `should_trigger()` is false after every prefix of the sequence. -/
theorem vad_all_silence_never_triggers :
    ∀ (l : List (ℚ × List ℕ)) (st : VADState), st.has_speech = false →
      (∀ p ∈ l, is_silence st.config.rms_silence_threshold p.2 = true) →
      (feedChunks l st).has_speech = false ∧
        (∀ l1, l1 <+: l → ∀ now, should_trigger now (feedChunks l1 st) = false) := by
  intro l
  induction l with
  | nil =>
    intro st hs _
    refine ⟨hs, ?_⟩
    intro l1 hpre now
    rw [List.prefix_nil.mp hpre]
    exact should_trigger_of_no_speech now st hs
  | cons p rest ih =>
    intro st hs hsil
    have hp : is_silence st.config.rms_silence_threshold p.2 = true :=
      hsil p (List.mem_cons_self p rest)
    have hs1 : (add_chunk p.1 p.2 st).has_speech = false := by
      rw [add_chunk_silent_has_speech _ _ _ hp]; exact hs
    have hcfg : (add_chunk p.1 p.2 st).config = st.config :=
      add_chunk_config _ _ _
    have hsil1 : ∀ q ∈ rest,
        is_silence (add_chunk p.1 p.2 st).config.rms_silence_threshold q.2 = true := by
      intro q hq
      rw [hcfg]
      exact hsil q (List.mem_cons_of_mem _ hq)
    obtain ⟨iha, ihb⟩ := ih (add_chunk p.1 p.2 st) hs1 hsil1
    refine ⟨iha, ?_⟩
    intro l1 hpre now
    rcases l1 with _ | ⟨q, l1'⟩
    · exact should_trigger_of_no_speech now st hs
    · have hq : q = p ∧ l1' <+: rest := by
        rw [List.cons_prefix_cons] at hpre
        exact hpre
      rw [hq.1]
      exact ihb l1' hq.2 now

/-- Witness for C4 on a concrete silent fragment. -/
theorem vad_all_silence_never_triggers_witness :
    (feedChunks [((0 : ℚ), [0, 0])] (VADState.mkInit sessionVADConfig)).has_speech = false ∧
      (∀ l1, l1 <+: [((0 : ℚ), [0, 0])] → ∀ now,
        should_trigger now (feedChunks l1 (VADState.mkInit sessionVADConfig)) = false) :=
  vad_all_silence_never_triggers [((0 : ℚ), [0, 0])] (VADState.mkInit sessionVADConfig)
    rfl (by
      intro p hp
      simp only [List.mem_singleton] at hp
      subst hp
      simp [is_silence, bytesToSamples, toInt16, meanSqNorm, sessionVADConfig,
        VADState.mkInit])

/-! ## C10 -/

/-- C10: an incoming audio message whose `data` field is absent or empty
leaves the handler without any message to the client, without any spawned
pipeline task, and with the session unchanged except for the
received-message counter bumped by the dispatch loop: the VAD buffer, the
session state and every other statistic are untouched. -/
theorem audio_message_empty_data_noop (now : ℚ) (st : SessionState)
    (msg : ClientMsg) (ht : msg.mtype = "audio")
    (hd : msg.data = none ∨ msg.data = some []) :
    handleMessage now st msg =
      ({ st with stats := { st.stats with
          messages_received := st.stats.messages_received + 1 } }, [], []) := by
  unfold handleMessage handleAudio
  rcases hd with hd | hd <;> simp [ht, hd]

/-- Witness for C10 on a concrete dataless audio message. -/
theorem audio_message_empty_data_noop_witness :
    handleMessage 0 SessionState.mkInit ⟨"audio", none, false⟩ =
      ({ SessionState.mkInit with stats := { SessionState.mkInit.stats with
          messages_received := SessionState.mkInit.stats.messages_received + 1 } },
        [], []) :=
  audio_message_empty_data_noop 0 SessionState.mkInit ⟨"audio", none, false⟩
    rfl (Or.inl rfl)

/-! ## C8 -/

/-- C8: in every pipeline run (buffered or complete-recording) in which
STT returns an empty or whitespace-only transcript, the run emits exactly
the initial processing status followed by `status(idle, "No speech
detected")` and ends there: no transcript, response or audio message
follows, and neither the reasoning engine nor TTS is invoked. -/
theorem empty_transcript_ends_run {α : Type} (env : PipelineEnv α)
    (elapsed : ℚ) (st : SessionState) (tr : SttResult)
    (hstrip : pyStrip tr.text = []) :
    (∀ audio audio2,
      st.isProcessingFlag = false →
      (get_audio_and_reset env.decode st.vad).1 = .ok audio →
      ¬ audio.length < 1000 →
      env.stt_available = true →
      env.resample audio = .ok audio2 →
      env.transcribe audio2 = .ok tr →
      (processAudioBuffer env elapsed st).msgs =
        [.status "processing" (some "Transcribing audio"),
         .status "idle" (some "No speech detected")] ∧
      (processAudioBuffer env elapsed st).invokedLLM = false ∧
      (processAudioBuffer env elapsed st).invokedTTS = false) ∧
    (∀ audio audio2,
      st.isProcessingFlag = false →
      ¬ audio.length < 1000 →
      env.stt_available = true →
      env.resample audio = .ok audio2 →
      env.validate_format audio2 = true →
      env.transcribe audio2 = .ok tr →
      (processCompleteAudio env elapsed st audio).msgs =
        [.status "processing" (some "Transcribing audio"),
         .status "idle" (some "No speech detected")] ∧
      (processCompleteAudio env elapsed st audio).invokedLLM = false ∧
      (processCompleteAudio env elapsed st audio).invokedTTS = false) := by
  constructor
  · intro audio audio2 hflag hget hlen hstt hres htr
    have hbody : processAudioBuffer env elapsed st =
        finishRun { st with isProcessingFlag := true, vad := (get_audio_and_reset env.decode { st with isProcessingFlag := true }.vad).2, current_state := "idle" }
          [.status "processing" (some "Transcribing audio"),
           .status "idle" (some "No speech detected")] false false := by
      unfold processAudioBuffer
      rw [if_neg (by simp [hflag])]
      simp only [sendStatus]
      rw [show ({ st with isProcessingFlag := true } : SessionState).vad = st.vad from rfl] at *
      unfold pipelineAfterResample
      rcases hr : get_audio_and_reset env.decode st.vad with ⟨res, vad2⟩
      rw [hr] at hget
      simp only at hget
      subst hget
      simp only [if_neg hlen, List.nil_append]
      rw [if_neg (by simp [hstt]), hres]
      simp only
      rw [htr]
      simp only [hstrip, sendStatus]
      rfl
    rw [hbody]
    exact ⟨rfl, rfl, rfl⟩
  · intro audio audio2 hflag hlen hstt hres hval htr
    have hbody : (processCompleteAudio env elapsed st audio).msgs =
        [.status "processing" (some "Transcribing audio"),
         .status "idle" (some "No speech detected")] ∧
        (processCompleteAudio env elapsed st audio).invokedLLM = false ∧
        (processCompleteAudio env elapsed st audio).invokedTTS = false := by
      unfold processCompleteAudio
      rw [if_neg (by simp [hflag])]
      simp only [sendStatus]
      unfold pipelineAfterResample
      rw [if_neg hlen]
      rw [if_neg (by simp [hstt]), hres]
      simp only
      rw [if_neg (by simp [hval])]
      rw [htr]
      simp only [hstrip, sendStatus]
      exact ⟨rfl, rfl, rfl⟩
    exact hbody

/-- Decode environment whose first strategy succeeds and exports a
1000-byte WAV. -/
def witnessDecodeEnv : DecodeEnv Unit :=
  ⟨fun _ => some (), fun _ => none, fun _ => none, fun _ => none,
   fun _ => List.replicate 1000 0⟩

/-- Pipeline environment whose STT returns a whitespace-only transcript. -/
def witnessPipelineEnv : PipelineEnv Unit :=
  { decode := witnessDecodeEnv, stt_available := true,
    resample := fun b => .ok b,
    transcribe := fun _ => .ok ⟨[' '], ['e', 'n']⟩,
    llm := fun _ => none, llmMsgs := fun _ => [],
    tts_available := false, synthesize := fun _ => [],
    validate_format := fun _ => true }

/-- A session whose buffer holds one decodable fragment. -/
def sessionWithAudio : SessionState :=
  { SessionState.mkInit with vad := vadState100 }

/-- Witness for C8 on both pipeline entry points. -/
theorem empty_transcript_ends_run_witness :
    ((processAudioBuffer witnessPipelineEnv 0 sessionWithAudio).msgs =
        [.status "processing" (some "Transcribing audio"),
         .status "idle" (some "No speech detected")] ∧
      (processAudioBuffer witnessPipelineEnv 0 sessionWithAudio).invokedLLM = false ∧
      (processAudioBuffer witnessPipelineEnv 0 sessionWithAudio).invokedTTS = false) ∧
    ((processCompleteAudio witnessPipelineEnv 0 SessionState.mkInit
          (List.replicate 1000 0)).msgs =
        [.status "processing" (some "Transcribing audio"),
         .status "idle" (some "No speech detected")] ∧
      (processCompleteAudio witnessPipelineEnv 0 SessionState.mkInit
          (List.replicate 1000 0)).invokedLLM = false ∧
      (processCompleteAudio witnessPipelineEnv 0 SessionState.mkInit
          (List.replicate 1000 0)).invokedTTS = false) :=
  ⟨(empty_transcript_ends_run witnessPipelineEnv 0 sessionWithAudio
      ⟨[' '], ['e', 'n']⟩ rfl).1 (List.replicate 1000 0) (List.replicate 1000 0)
      rfl rfl (by simp) rfl rfl rfl,
   (empty_transcript_ends_run witnessPipelineEnv 0 SessionState.mkInit
      ⟨[' '], ['e', 'n']⟩ rfl).2 (List.replicate 1000 0) (List.replicate 1000 0)
      rfl (by simp) rfl rfl rfl rfl⟩

/-! ## C2 -/

/-- Invariant of the guard protocol: the lock is held exactly while
`_is_processing` is set, which happens exactly while some task is in the
body, and the two tasks are never both in the body. -/
def SysInv (s : PipeSys) : Prop :=
  s.lockHeld = s.isProcessing ∧
    s.isProcessing = (s.t0.isBody || s.t1.isBody) ∧
    ¬(s.t0.isBody = true ∧ s.t1.isBody = true)

/-- One step of either task preserves the guard invariant. -/
theorem sysInv_step (n : ℕ) (s : PipeSys) (i : Bool) (h : SysInv s) :
    SysInv (stepTask n s i) := by
  obtain ⟨h1, h2, h3⟩ := h
  cases i <;>
    · unfold stepTask PipeSys.task PipeSys.setTask
      simp only [Bool.false_eq_true, if_false, if_true]
      split <;>
        rename_i hphase <;>
        [skip; skip; (exact ⟨h1, h2, h3⟩)] <;>
      · split
        · constructor <;> simp_all [SysInv, TaskPhase.isBody]
        · first
          | (split
             · exact ⟨h1, h2, h3⟩
             · constructor <;> simp_all [SysInv, TaskPhase.isBody])
          | (constructor <;> simp_all [SysInv, TaskPhase.isBody])

/-- The invariant holds along every schedule. -/
theorem sysInv_runSched (n : ℕ) (sched : List Bool) (s : PipeSys)
    (h : SysInv s) : SysInv (runSched n sched s) := by
  induction sched generalizing s with
  | nil => exact h
  | cons i rest ih => exact ih _ (sysInv_step n s i h)

/-- C2: from two back-to-back triggers, along every schedule, at most one
pipeline task is ever inside the body; and whenever a task is still at
its entry while the other is in flight, its very next step is the pure
drop: it finishes immediately without running the body, without touching
the guard state, and without waiting on the lock. -/
theorem second_trigger_dropped (n : ℕ) (sched : List Bool) :
    (¬((runSched n sched initSys).t0.isBody = true ∧
        (runSched n sched initSys).t1.isBody = true)) ∧
      (∀ i : Bool, (runSched n sched initSys).task i = .entry →
        ((runSched n sched initSys).task (!i)).isBody = true →
        stepTask n (runSched n sched initSys) i =
          (runSched n sched initSys).setTask i (.finished false)) := by
  have hInv : SysInv (runSched n sched initSys) :=
    sysInv_runSched n sched initSys (by
      refine ⟨rfl, rfl, ?_⟩
      simp [initSys, TaskPhase.isBody])
  obtain ⟨h1, h2, h3⟩ := hInv
  refine ⟨h3, ?_⟩
  intro i hentry hother
  have hproc : (runSched n sched initSys).isProcessing = true := by
    rw [h2]
    cases i <;> simp_all [PipeSys.task]
  unfold stepTask
  rw [hentry, hproc]
  simp

/-- Witness for C2: with the first task in the body after one step, the
second task's entry step is a drop. -/
theorem second_trigger_dropped_witness :
    stepTask 1 (runSched 1 [false] initSys) true =
      (runSched 1 [false] initSys).setTask true (.finished false) :=
  (second_trigger_dropped 1 [false]).2 true (by decide) (by decide)

/-! ## C9 -/

/-- Alphabet table lookups invert the encoder table below 64. -/
theorem from_to_b64 {n : ℕ} (h : n < 64) : fromB64Char (toB64Char n) = some n := by
  have hall : ∀ i : Fin 64, fromB64Char (toB64Char i.1) = some i.1 := by decide
  exact hall ⟨n, h⟩

/-- The padding character is outside the alphabet. -/
theorem fromB64Char_pad : fromB64Char '=' = none := by decide

/-- Is a character a possible encoder output (alphabet or padding)? -/
def isB64OrPad (c : Char) : Bool :=
  (fromB64Char c).isSome || c == '='

/-- Every encoder-table output is in the alphabet. -/
theorem toB64Char_ok (n : ℕ) : isB64OrPad (toB64Char n) = true := by
  unfold toB64Char
  by_cases hn : n < 64
  · have hall : ∀ i : Fin 64, isB64OrPad (b64Chars.getD i.1 '/') = true := by decide
    exact hall ⟨n, hn⟩
  · rw [List.getD_eq_default]
    · decide
    · have : b64Chars.length = 64 := by decide
      omega

/-- Every character of an encoded string is alphabet or padding. -/
theorem encode_chars : ∀ (bs : List ℕ) (c : Char),
    c ∈ bytes_to_base64 bs → isB64OrPad c = true := by
  intro bs
  unfold bytes_to_base64
  induction bs using b64EncodeGroups.induct with
  | case1 => intro c hc; simp [b64EncodeGroups] at hc
  | case2 a =>
    intro c hc
    simp only [b64EncodeGroups, List.mem_cons, List.not_mem_nil, or_false] at hc
    rcases hc with h | h | h | h <;> subst h
    · exact toB64Char_ok _
    · exact toB64Char_ok _
    · decide
    · decide
  | case3 a b =>
    intro c hc
    simp only [b64EncodeGroups, List.mem_cons, List.not_mem_nil, or_false] at hc
    rcases hc with h | h | h | h <;> subst h
    · exact toB64Char_ok _
    · exact toB64Char_ok _
    · exact toB64Char_ok _
    · decide
  | case4 a b cb r ih =>
    intro c hc
    simp only [b64EncodeGroups, List.mem_cons] at hc
    rcases hc with h | h | h | h | h
    · subst h; exact toB64Char_ok _
    · subst h; exact toB64Char_ok _
    · subst h; exact toB64Char_ok _
    · subst h; exact toB64Char_ok _
    · exact ih c h

/-- Decoding an encoded byte string recovers the bytes, for any already
accumulated prefix. -/
theorem b64_decode_encode : ∀ (bs : List ℕ), (∀ x ∈ bs, x < 256) →
    ∀ acc, b64DecodeGo acc [] 0 (b64EncodeGroups bs) = some (acc ++ bs) := by
  intro bs
  induction bs using b64EncodeGroups.induct with
  | case1 => intro _ acc; simp [b64EncodeGroups, b64DecodeGo]
  | case2 a =>
    intro h acc
    have ha : a < 256 := h a (by simp)
    have h1 : a / 4 < 64 := by omega
    have h2 : a % 4 * 16 < 64 := by omega
    simp only [b64EncodeGroups, b64DecodeGo, from_to_b64 h1, from_to_b64 h2,
      fromB64Char_pad, List.nil_append, List.cons_append, List.append_nil]
    norm_num
    omega
  | case3 a b =>
    intro h acc
    have ha : a < 256 := h a (by simp)
    have hb : b < 256 := h b (by simp)
    have h1 : a / 4 < 64 := by omega
    have h2 : a % 4 * 16 + b / 16 < 64 := by omega
    have h3 : b % 16 * 4 < 64 := by omega
    simp only [b64EncodeGroups, b64DecodeGo, from_to_b64 h1, from_to_b64 h2,
      from_to_b64 h3, fromB64Char_pad, List.nil_append, List.cons_append,
      List.append_nil]
    rw [if_pos trivial]
    have e1 : a / 4 * 4 + (a % 4 * 16 + b / 16) / 16 = a := by omega
    have e2 : (a % 4 * 16 + b / 16) % 16 * 16 + b % 16 * 4 / 4 = b := by omega
    rw [e1, e2]
  | case4 a b cb r ih =>
    intro h acc
    have ha : a < 256 := h a (by simp)
    have hb : b < 256 := h b (by simp)
    have hc : cb < 256 := h cb (by simp)
    have h1 : a / 4 < 64 := by omega
    have h2 : a % 4 * 16 + b / 16 < 64 := by omega
    have h3 : b % 16 * 4 + cb / 64 < 64 := by omega
    have h4 : cb % 64 < 64 := by omega
    have hr : ∀ x ∈ r, x < 256 := fun x hx => h x (by simp [hx])
    simp only [b64EncodeGroups, b64DecodeGo, from_to_b64 h1, from_to_b64 h2,
      from_to_b64 h3, from_to_b64 h4, List.nil_append, List.cons_append]
    have hq : quadBytes (a / 4) (a % 4 * 16 + b / 16) (b % 16 * 4 + cb / 64)
        (cb % 64) = [a, b, cb] := by
      unfold quadBytes
      have e1 : a / 4 * 4 + (a % 4 * 16 + b / 16) / 16 = a := by omega
      have e2 : (a % 4 * 16 + b / 16) % 16 * 16 + (b % 16 * 4 + cb / 64) / 4 = b := by
        omega
      have e3 : (b % 16 * 4 + cb / 64) % 4 * 64 + cb % 64 = cb := by omega
      rw [e1, e2, e3]
    rw [hq, ih hr]
    simp

/-- C9 counterexample: the string `"!!!!"` is not valid base64 (it is not
well formed, and no byte string encodes to it), yet `base64_to_bytes`
returns `b''` on it instead of raising. -/
theorem base64_invalid_input_decodes :
    base64_to_bytes ("!!!!".data) = .ok [] ∧
      wellFormedB64 ("!!!!".data) = false ∧
      ∀ bs : List ℕ, bytes_to_base64 bs ≠ "!!!!".data := by
  refine ⟨rfl, by decide, ?_⟩
  intro bs hcontra
  have hm : '!' ∈ bytes_to_base64 bs := by
    rw [hcontra]; decide
  have hchar := encode_chars bs '!' hm
  exact absurd hchar (by decide)

/-- C9 (amended): base64 encoding and decoding round-trip for every byte
string; `base64_to_bytes` discards characters outside the base64
alphabet and raises `ValueError` only when the retained data characters
cannot form complete groups (as on `"ab"`), so some non-base64 inputs
such as `"!!!!"` decode successfully (to `b''`) instead of raising. -/
theorem base64_roundtrip_and_lenient_decode :
    (∀ bs : List ℕ, (∀ x ∈ bs, x < 256) →
      base64_to_bytes (bytes_to_base64 bs) = .ok bs) ∧
      base64_to_bytes ("ab".data) = .error "Invalid base64 audio data" ∧
      base64_to_bytes ("!!!!".data) = .ok [] := by
  refine ⟨?_, rfl, rfl⟩
  intro bs h
  unfold base64_to_bytes bytes_to_base64
  rw [b64_decode_encode bs h []]
  rfl

/-- Witness for C9 at a concrete byte string. -/
theorem base64_roundtrip_witness :
    base64_to_bytes (bytes_to_base64 [0, 127, 255]) = .ok [0, 127, 255] :=
  base64_roundtrip_and_lenient_decode.1 [0, 127, 255] (by decide)

/-! ## Supporting lemmas: word counting (`str.split()`) -/

/-- A single space between two segments always separates their words. -/
theorem wordsAux_space_glue :
    ∀ (a : List Char) (acc b : List Char),
      (wordsAux acc (a ++ ' ' :: b)).length =
        (wordsAux acc a).length + (wordsAux [] b).length := by
  intro a
  induction a with
  | nil =>
    intro acc b
    have hsp : isWsChar ' ' = true := by decide
    by_cases hacc : acc = []
    · simp [wordsAux, hacc, hsp]
    · simp [wordsAux, hacc, hsp]
      omega
  | cons c a' ih =>
    intro acc b
    by_cases hws : isWsChar c = true
    · by_cases hacc : acc = []
      · simp [wordsAux, hws, hacc, ih [] b]
      · simp [wordsAux, hws, hacc, ih [] b]
        omega
    · simp [wordsAux, hws, ih (c :: acc) b]

/-- `str.split()` distributes over a single-space join. -/
theorem countWords_space_glue (a b : List Char) :
    countWords (a ++ ' ' :: b) = countWords a + countWords b :=
  wordsAux_space_glue a [] b

/-- Word count of a single-space intercalation is the sum of the pieces'
word counts. -/
theorem countWords_intercalate :
    ∀ l : List (List Char),
      countWords (List.intercalate [' '] l) = (l.map countWords).sum := by
  intro l
  induction l with
  | nil => simp [countWords, List.intercalate, pySplitWords, wordsAux]
  | cons a rest ih =>
    rcases rest with _ | ⟨b, rest'⟩
    · simp [List.intercalate, countWords]
    · have hstep : List.intercalate [' '] (a :: b :: rest') =
          a ++ ' ' :: List.intercalate [' '] (b :: rest') := by
        simp [List.intercalate, List.intersperse]
      rw [hstep, countWords_space_glue, ih]
      simp

/-- Behaviour of the splitter on an all-whitespace tail. -/
theorem wordsAux_all_ws :
    ∀ (w acc : List Char), (∀ c ∈ w, isWsChar c = true) →
      wordsAux acc w = if acc = [] then [] else [acc.reverse] := by
  intro w
  induction w with
  | nil => intro acc _; rfl
  | cons c w' ih =>
    intro acc hw
    have hc : isWsChar c = true := hw c (List.mem_cons_self c w')
    have hw' : ∀ x ∈ w', isWsChar x = true := fun x hx =>
      hw x (List.mem_cons_of_mem _ hx)
    by_cases hacc : acc = []
    · simp only [wordsAux, hc, if_pos rfl, hacc, if_pos trivial]
      rw [ih [] hw']
      simp
    · simp only [wordsAux, hc, if_pos rfl, if_neg hacc]
      rw [ih [] hw']
      simp [hacc]

/-- Behaviour of the splitter on an all-non-whitespace segment. -/
theorem wordsAux_all_nonws :
    ∀ (w acc : List Char), (∀ c ∈ w, isWsChar c = false) →
      wordsAux acc w =
        if w = [] ∧ acc = [] then [] else [acc.reverse ++ w] := by
  intro w
  induction w with
  | nil =>
    intro acc _
    by_cases hacc : acc = [] <;> simp [wordsAux, hacc]
  | cons c w' ih =>
    intro acc hw
    have hc : isWsChar c = false := hw c (List.mem_cons_self c w')
    have hw' : ∀ x ∈ w', isWsChar x = false := fun x hx =>
      hw x (List.mem_cons_of_mem _ hx)
    simp only [wordsAux, hc, Bool.false_eq_true, if_neg]
    rw [ih (c :: acc) hw']
    simp

/-- A non-empty whitespace-free string is one word. -/
theorem countWords_word (w : List Char) (hne : w ≠ [])
    (hw : ∀ c ∈ w, isWsChar c = false) : countWords w = 1 := by
  unfold countWords pySplitWords
  rw [wordsAux_all_nonws w [] hw]
  simp [hne]

/-- Every word produced by `str.split()` is non-empty and
whitespace-free. -/
theorem pySplitWords_words :
    ∀ (s acc : List Char), (∀ c ∈ acc, isWsChar c = false) →
      ∀ w ∈ wordsAux acc s, w ≠ [] ∧ ∀ c ∈ w, isWsChar c = false := by
  intro s
  induction s with
  | nil =>
    intro acc hacc w hw
    by_cases h : acc = []
    · rw [show wordsAux acc [] = [] from by simp [wordsAux, h]] at hw
      simp at hw
    · rw [show wordsAux acc [] = [acc.reverse] from by simp [wordsAux, h]] at hw
      rw [List.mem_singleton] at hw
      subst hw
      exact ⟨by simpa using h, fun c hc => hacc c (List.mem_reverse.mp hc)⟩
  | cons c s' ih =>
    intro acc hacc w hw
    by_cases hws : isWsChar c = true
    · by_cases h : acc = []
      · rw [show wordsAux acc (c :: s') = wordsAux [] s' from by
          simp [wordsAux, hws, h]] at hw
        exact ih [] (by simp) w hw
      · rw [show wordsAux acc (c :: s') = acc.reverse :: wordsAux [] s' from by
          simp [wordsAux, hws, h]] at hw
        rcases List.mem_cons.mp hw with hw | hw
        · subst hw
          exact ⟨by simpa using h, fun x hx => hacc x (List.mem_reverse.mp hx)⟩
        · exact ih [] (by simp) w hw
    · rw [show wordsAux acc (c :: s') = wordsAux (c :: acc) s' from by
        simp [wordsAux, hws]] at hw
      refine ih (c :: acc) ?_ w hw
      intro x hx
      rcases List.mem_cons.mp hx with hx | hx
      · subst hx; simpa using hws
      · exact hacc x hx

/-- Word count of a join of non-empty whitespace-free words. -/
theorem countWords_join_words (ws : List (List Char))
    (h : ∀ w ∈ ws, w ≠ [] ∧ ∀ c ∈ w, isWsChar c = false) :
    countWords (List.intercalate [' '] ws) = ws.length := by
  rw [countWords_intercalate]
  induction ws with
  | nil => rfl
  | cons a rest ih =>
    have ha := h a (List.mem_cons_self a rest)
    have hrest : ∀ w ∈ rest, w ≠ [] ∧ ∀ c ∈ w, isWsChar c = false :=
      fun w hw => h w (List.mem_cons_of_mem _ hw)
    simp only [List.map_cons, List.sum_cons, List.length_cons,
      countWords_word a ha.1 ha.2, ih hrest]
    omega

/-- Appending a period to a join of non-empty whitespace-free words does
not change the word count. -/
theorem countWords_join_dot :
    ∀ ws : List (List Char), ws ≠ [] →
      (∀ w ∈ ws, w ≠ [] ∧ ∀ c ∈ w, isWsChar c = false) →
      countWords (List.intercalate [' '] ws ++ ['.']) = ws.length := by
  intro ws
  induction ws with
  | nil => intro hne _; exact absurd rfl hne
  | cons a rest ih =>
    intro _ h
    have ha := h a (List.mem_cons_self a rest)
    have hrest : ∀ w ∈ rest, w ≠ [] ∧ ∀ c ∈ w, isWsChar c = false :=
      fun w hw => h w (List.mem_cons_of_mem _ hw)
    rcases rest with _ | ⟨b, rest'⟩
    · have hj : List.intercalate [' '] [a] = a := by
        simp [List.intercalate, List.intersperse]
      rw [hj]
      have : countWords (a ++ ['.']) = 1 := by
        apply countWords_word
        · simp [ha.1]
        · intro c hc
          rcases List.mem_append.mp hc with hc | hc
          · exact ha.2 c hc
          · simp only [List.mem_singleton] at hc
            subst hc
            decide
      rw [this]
      rfl
    · have hstep : List.intercalate [' '] (a :: b :: rest') =
          a ++ ' ' :: List.intercalate [' '] (b :: rest') := by
        simp [List.intercalate, List.intersperse]
      rw [hstep, List.append_assoc, List.cons_append, countWords_space_glue]
      rw [show List.intercalate [' '] (b :: rest') ++ ['.'] =
            List.intercalate [' '] (b :: rest') ++ ['.'] from rfl]
      rw [ih (by simp) hrest, countWords_word a ha.1 ha.2]
      simp only [List.length_cons]
      omega

/-! ## Supporting lemmas: stripping and truncation -/

/-- Dropping leading whitespace does not change the word count. -/
theorem countWords_dropWhile_ws :
    ∀ s : List Char, countWords (s.dropWhile isWsChar) = countWords s := by
  intro s
  unfold countWords pySplitWords
  induction s with
  | nil => rfl
  | cons c s' ih =>
    by_cases hws : isWsChar c = true
    · rw [List.dropWhile_cons_of_pos (by simpa using hws)]
      rw [show wordsAux [] (c :: s') = wordsAux [] s' from by
        simp [wordsAux, hws]]
      exact ih
    · rw [List.dropWhile_cons_of_neg (by simpa using hws)]

/-- Trailing whitespace does not change the splitter's output. -/
theorem wordsAux_trailing_ws :
    ∀ (s w acc : List Char), (∀ c ∈ w, isWsChar c = true) →
      wordsAux acc (s ++ w) = wordsAux acc s := by
  intro s
  induction s with
  | nil =>
    intro w acc hw
    rw [List.nil_append, wordsAux_all_ws w acc hw]
    by_cases hacc : acc = [] <;> simp [wordsAux, hacc]
  | cons c s' ih =>
    intro w acc hw
    by_cases hws : isWsChar c = true
    · by_cases hacc : acc = []
      · rw [show (c :: s') ++ w = c :: (s' ++ w) from rfl]
        rw [show wordsAux acc (c :: (s' ++ w)) = wordsAux [] (s' ++ w) from by
          simp [wordsAux, hws, hacc]]
        rw [show wordsAux acc (c :: s') = wordsAux [] s' from by
          simp [wordsAux, hws, hacc]]
        exact ih w [] hw
      · rw [show (c :: s') ++ w = c :: (s' ++ w) from rfl]
        rw [show wordsAux acc (c :: (s' ++ w)) =
              acc.reverse :: wordsAux [] (s' ++ w) from by
          simp [wordsAux, hws, hacc]]
        rw [show wordsAux acc (c :: s') = acc.reverse :: wordsAux [] s' from by
          simp [wordsAux, hws, hacc]]
        rw [ih w [] hw]
    · rw [show (c :: s') ++ w = c :: (s' ++ w) from rfl]
      rw [show wordsAux acc (c :: (s' ++ w)) = wordsAux (c :: acc) (s' ++ w) from by
        simp [wordsAux, hws]]
      rw [show wordsAux acc (c :: s') = wordsAux (c :: acc) s' from by
        simp [wordsAux, hws]]
      exact ih w (c :: acc) hw

/-- `str.strip()` does not change the word count. -/
theorem countWords_pyStrip (s : List Char) :
    countWords (pyStrip s) = countWords s := by
  unfold pyStrip
  set u := s.dropWhile isWsChar with hu
  have hdecomp : u = (u.reverse.dropWhile isWsChar).reverse ++
      (u.reverse.takeWhile isWsChar).reverse := by
    conv_lhs => rw [← List.reverse_reverse u]
    conv_lhs =>
      rw [show u.reverse = u.reverse.takeWhile isWsChar ++ u.reverse.dropWhile isWsChar from
        (List.takeWhile_append_dropWhile isWsChar u.reverse).symm]
    rw [List.reverse_append]
  have hws : ∀ c ∈ (u.reverse.takeWhile isWsChar).reverse, isWsChar c = true := by
    intro c hc
    exact List.mem_takeWhile_imp (List.mem_reverse.mp hc)
  calc countWords (u.reverse.dropWhile isWsChar).reverse
      = countWords ((u.reverse.dropWhile isWsChar).reverse ++
          (u.reverse.takeWhile isWsChar).reverse) := by
        unfold countWords pySplitWords
        rw [wordsAux_trailing_ws _ _ [] hws]
    _ = countWords u := by rw [← hdecomp]
    _ = countWords s := countWords_dropWhile_ws s

/-- The hard-truncation branch never exceeds the word budget. -/
theorem hardTruncate_count_le (maxWords : ℕ) (s : List Char)
    (h1 : 1 ≤ maxWords) : countWords (hardTruncate maxWords s) ≤ maxWords := by
  unfold hardTruncate
  set take := (pySplitWords s).take maxWords with htake
  have hprops : ∀ w ∈ take, w ≠ [] ∧ ∀ c ∈ w, isWsChar c = false := by
    intro w hw
    exact pySplitWords_words s [] (by simp) w (List.mem_of_mem_take hw)
  have hlen : take.length ≤ maxWords := by
    rw [htake]
    exact le_trans (List.length_take_le _ _) (le_refl _)
  show countWords (if endsWithTerm (List.intercalate [' '] take) = true then
      List.intercalate [' '] take else List.intercalate [' '] take ++ ['.']) ≤
    maxWords
  split
  · rw [countWords_join_words take hprops]
    exact hlen
  · by_cases hne : take = []
    · rw [hne]
      have : countWords (List.intercalate [' '] ([] : List (List Char)) ++ ['.']) = 1 := by
        apply countWords_word
        · simp [List.intercalate]
        · intro c hc
          simp only [List.intercalate, List.intersperse, List.flatten,
            List.nil_append, List.mem_singleton] at hc
          subst hc
          decide
      simpa using le_trans (le_of_eq this) h1
    · rw [countWords_join_dot take hne hprops]
      exact hlen

/-- The truncation loop keeps the accumulated word count within the
budget. -/
theorem truncGo_count_le :
    ∀ (sents : List (List Char)) (acc : List (List Char)) (wc maxWords : ℕ),
      1 ≤ maxWords → (acc.map countWords).sum = wc → wc ≤ maxWords →
      (((truncGo maxWords acc wc sents).map countWords).sum) ≤ maxWords := by
  intro sents
  induction sents with
  | nil =>
    intro acc wc maxWords _ hsum hle
    unfold truncGo
    rw [List.map_reverse, List.sum_reverse, hsum]
    exact hle
  | cons sent rest ih =>
    intro acc wc maxWords h1 hsum hle
    unfold truncGo
    dsimp only
    split
    · rename_i hfits
      exact ih (sent :: acc) (wc + countWords sent) maxWords h1
        (by simp [hsum]; omega) hfits
    · split
      · simp only [List.map_cons, List.map_nil, List.sum_cons, List.sum_nil,
          add_zero]
        exact hardTruncate_count_le maxWords sent h1
      · rw [List.map_reverse, List.sum_reverse, hsum]
        exact hle

/-- `truncate_for_voice` respects the word budget. -/
theorem truncate_for_voice_count_le (sents : List (List Char))
    (maxWords : ℕ) (h1 : 1 ≤ maxWords) :
    countWords (truncate_for_voice sents maxWords) ≤ maxWords := by
  unfold truncate_for_voice
  split
  · simp [countWords, pySplitWords, wordsAux]
  · rw [countWords_intercalate]
    exact truncGo_count_le sents [] 0 maxWords h1 rfl (by omega)

/-- `strip` is the identity on a string with non-whitespace edges. -/
theorem pyStrip_eq_self (t : List Char)
    (h1 : ∀ c, t.head? = some c → isWsChar c = false)
    (h2 : ∀ c, t.getLast? = some c → isWsChar c = false) : pyStrip t = t := by
  unfold pyStrip
  have hfront : t.dropWhile isWsChar = t := by
    cases t with
    | nil => rfl
    | cons c r =>
      rw [List.dropWhile_cons_of_neg]
      simpa using h1 c rfl
  rw [hfront]
  have hback : t.reverse.dropWhile isWsChar = t.reverse := by
    cases hr : t.reverse with
    | nil => rfl
    | cons c r =>
      rw [List.dropWhile_cons_of_neg]
      have : t.getLast? = some c := by
        rw [← List.head?_reverse, hr]
        rfl
      simpa using h2 c this
  rw [hback, List.reverse_reverse]

/-- Terminal punctuation is not whitespace. -/
theorem isTermCh_not_ws {c : Char} (h : isTermCh c = true) :
    isWsChar c = false := by
  simp only [isTermCh, Bool.or_eq_true, decide_eq_true_eq] at h
  rcases h with (h | h) | h <;> subst h <;> decide

/-- The sanitizer pipeline maps the empty string to no sentences. -/
theorem sanitize_pipeline_nil :
    split_sentences (normalize_whitespace (normalize_punctuation
      (remove_markdown []))) = [] := by decide

/-- A first sentence over the budget short-circuits the loop into the
hard-truncation branch. -/
theorem truncGo_first_too_long (maxWords : ℕ) (s1 : List Char)
    (rest : List (List Char)) (h : maxWords < countWords s1) :
    truncGo maxWords [] 0 (s1 :: rest) = [hardTruncate maxWords s1] := by
  unfold truncGo
  dsimp only
  rw [if_neg (by omega), if_pos rfl]

/-- Joining a single piece is that piece. -/
theorem intercalate_singleton (x : List Char) :
    List.intercalate [' '] [x] = x := by
  simp [List.intercalate, List.intersperse]

/-- Structure facts about the hard-truncated first sentence: it is
already stripped, non-empty, and ends in terminal punctuation. -/
theorem hardTruncate_facts (maxWords : ℕ) (s1 : List Char)
    (hmax : 1 ≤ maxWords) (hbig : maxWords < countWords s1) :
    pyStrip (hardTruncate maxWords s1) = hardTruncate maxWords s1 ∧
      hardTruncate maxWords s1 ≠ [] ∧
      endsWithTerm (hardTruncate maxWords s1) = true := by
  have hwordsne : pySplitWords s1 ≠ [] := by
    intro hcontra
    unfold countWords at hbig
    rw [hcontra] at hbig
    simp at hbig
  have htakene : (pySplitWords s1).take maxWords ≠ [] := by
    rw [Ne, List.take_eq_nil_iff]
    push_neg
    exact ⟨by omega, hwordsne⟩
  obtain ⟨w, ws', htake⟩ := List.exists_cons_of_ne_nil htakene
  have hwprops : w ≠ [] ∧ ∀ c ∈ w, isWsChar c = false := by
    apply pySplitWords_words s1 [] (by simp)
    apply List.mem_of_mem_take
    show w ∈ List.take maxWords (pySplitWords s1)
    rw [htake]
    exact List.mem_cons_self w ws'
  obtain ⟨X, hX⟩ : ∃ X, List.intercalate [' ']
      ((pySplitWords s1).take maxWords) = w ++ X := by
    rw [htake]
    cases ws' with
    | nil => exact ⟨[], by simp [List.intercalate, List.intersperse]⟩
    | cons b r =>
      exact ⟨' ' :: List.intercalate [' '] (b :: r),
        by simp [List.intercalate, List.intersperse]⟩
  set J := List.intercalate [' '] ((pySplitWords s1).take maxWords) with hJ
  have hhardEq : hardTruncate maxWords s1 =
      if endsWithTerm J = true then J else J ++ ['.'] := by
    rw [hJ]
    rfl
  have hJne : J ≠ [] := by
    rw [hX]
    intro hcontra
    exact hwprops.1 (List.append_eq_nil.mp hcontra).1
  have hhead : ∀ c, J.head? = some c → isWsChar c = false := by
    intro c hc
    obtain ⟨d, w', hw⟩ := List.exists_cons_of_ne_nil hwprops.1
    rw [hX, hw] at hc
    simp only [List.cons_append, List.head?_cons, Option.some.injEq] at hc
    subst hc
    exact hwprops.2 d (by rw [hw]; exact List.mem_cons_self d w')
  by_cases hterm : endsWithTerm J = true
  · have hhard : hardTruncate maxWords s1 = J := by rw [hhardEq, if_pos hterm]
    rw [hhard]
    have hlast : ∀ c, J.getLast? = some c → isWsChar c = false := by
      intro c hc
      unfold endsWithTerm at hterm
      rw [hc] at hterm
      exact isTermCh_not_ws hterm
    exact ⟨pyStrip_eq_self J hhead hlast, hJne, hterm⟩
  · have hhard : hardTruncate maxWords s1 = J ++ ['.'] := by
      rw [hhardEq, if_neg hterm]
    rw [hhard]
    have hlast : (J ++ ['.']).getLast? = some '.' := by
      rw [List.getLast?_concat]
    refine ⟨pyStrip_eq_self _ ?_ ?_, by simp, ?_⟩
    · intro c hc
      obtain ⟨d, J', hJd⟩ := List.exists_cons_of_ne_nil hJne
      rw [hJd] at hc
      simp only [List.cons_append, List.head?_cons, Option.some.injEq] at hc
      subst hc
      exact hhead d (by rw [hJd]; rfl)
    · intro c hc
      rw [hlast] at hc
      injection hc with hc
      subst hc
      decide
    · unfold endsWithTerm
      rw [hlast]
      decide

/-! ## C6 -/

/-- C6: the sanitizer's output never contains more than the configured
word budget (given at least one allowed word); and when the very first
sentence of the normalized text alone exceeds the budget, the output is
exactly that sentence hard-truncated to the budget and still ends in
terminal punctuation. -/
theorem sanitize_respects_word_budget :
    (∀ (maxWords : ℕ) (x : List Char), 1 ≤ maxWords →
      countWords (sanitize_for_tts maxWords x) ≤ maxWords) ∧
    (∀ (maxWords : ℕ) (x : List Char) (s1 : List Char)
        (rest : List (List Char)), 1 ≤ maxWords →
      split_sentences (normalize_whitespace (normalize_punctuation
        (remove_markdown x))) = s1 :: rest →
      maxWords < countWords s1 →
      sanitize_for_tts maxWords x = hardTruncate maxWords s1 ∧
        endsWithTerm (sanitize_for_tts maxWords x) = true) := by
  constructor
  · intro maxWords x h1
    unfold sanitize_for_tts
    by_cases hx : x = []
    · rw [if_pos hx]
      simp [countWords, pySplitWords, wordsAux]
    · rw [if_neg hx]
      show countWords (if pyStrip (truncate_for_voice (split_sentences
          (normalize_whitespace (normalize_punctuation (remove_markdown x))))
          maxWords) = [] then [] else pyStrip (truncate_for_voice
          (split_sentences (normalize_whitespace (normalize_punctuation
          (remove_markdown x)))) maxWords)) ≤ maxWords
      split
      · simp [countWords, pySplitWords, wordsAux]
      · rw [countWords_pyStrip]
        exact truncate_for_voice_count_le _ maxWords h1
  · intro maxWords x s1 rest h1 hsents hbig
    have hx : x ≠ [] := by
      intro hcontra
      rw [hcontra, sanitize_pipeline_nil] at hsents
      exact List.noConfusion hsents
    obtain ⟨hstrip, hne, hterm⟩ := hardTruncate_facts maxWords s1 h1 hbig
    have hmain : sanitize_for_tts maxWords x = hardTruncate maxWords s1 := by
      unfold sanitize_for_tts
      rw [if_neg hx]
      show (if pyStrip (truncate_for_voice (split_sentences
          (normalize_whitespace (normalize_punctuation (remove_markdown x))))
          maxWords) = [] then [] else pyStrip (truncate_for_voice
          (split_sentences (normalize_whitespace (normalize_punctuation
          (remove_markdown x)))) maxWords)) = hardTruncate maxWords s1
      rw [hsents]
      have htrunc : truncate_for_voice (s1 :: rest) maxWords =
          hardTruncate maxWords s1 := by
        unfold truncate_for_voice
        rw [if_neg (by simp), truncGo_first_too_long maxWords s1 rest hbig,
          intercalate_singleton]
      rw [htrunc, hstrip, if_neg hne]
    exact ⟨hmain, by rw [hmain]; exact hterm⟩

/-- Witness for C6: a long input is capped at 50 words, and a 3-word
sentence with budget 2 is hard-truncated to two words plus a period. -/
theorem sanitize_respects_word_budget_witness :
    countWords (sanitize_for_tts 50 ("hello there.".data)) ≤ 50 ∧
      sanitize_for_tts 2 ("a b c".data) = hardTruncate 2 ("a b c".data) := by
  refine ⟨sanitize_respects_word_budget.1 50 ("hello there.".data) (by decide), ?_⟩
  exact (sanitize_respects_word_budget.2 2 ("a b c".data) ("a b c".data) []
    (by decide) (by decide) (by decide)).1

/-! ## Supporting development for C5: the substitution engine fixes
clean strings

`cleanText` is a decidable class of strings none of the sanitizer's
rewriting passes can touch: only plain word characters and basic
punctuation, single spaces, no space before punctuation, no letter glued
to punctuation, no repeated periods or commas, non-digit non-space start,
non-space end, and a bounded word count. -/

/-- Characters the sanitizer never rewrites. -/
def cleanChar (c : Char) : Bool :=
  c.isAlpha || c.isDigit || c == ' ' || c == '.' || c == ',' || c == '!' ||
    c == '?' || c == ';' || c == ':'

/-- Adjacent-pair conditions none of the whitespace/punctuation passes
fire on. -/
def pairOK (a b : Char) : Bool :=
  !((a == ' ' && (b == ' ' || isPunctCh b)) ||
    (isPunctCh a && isAsciiLetter b) ||
    (a == '.' && b == '.') ||
    (a == ',' && b == ','))

/-- `pairOK` holds for every adjacent pair. -/
def chainPairsOK : List Char → Bool
  | [] => true
  | [_] => true
  | a :: b :: r => pairOK a b && chainPairsOK (b :: r)

/-- The clean-text class: sanitizer-stable strings within the word
budget. -/
def cleanText (maxWords : ℕ) (s : List Char) : Bool :=
  s.all cleanChar && chainPairsOK s &&
    (match s with
     | [] => true
     | c :: _ => !c.isDigit && !(c == ' ')) &&
    (match s.getLast? with
     | some c => !(c == ' ')
     | none => true) &&
    decide (countWords s ≤ maxWords)

/-- A clean character differs from any unclean one. -/
theorem cleanChar_ne {c : Char} (h : cleanChar c = true) {x : Char}
    (hx : cleanChar x = false) : c ≠ x := by
  intro he
  rw [he, hx] at h
  exact Bool.false_ne_true h

/-- The only clean whitespace character is the space. -/
theorem cleanChar_ws_eq_space {c : Char} (h : cleanChar c = true)
    (hws : isWsChar c = true) : c = ' ' := by
  simp only [isWsChar, Bool.or_eq_true, decide_eq_true_eq] at hws
  rcases hws with ((((h1 | h1) | h1) | h1) | h1) | h1 <;> subst h1 <;>
    first | rfl | exact absurd h (by decide)

/-- Tail of a pair chain. -/
theorem chainPairsOK_tail {a : Char} {r : List Char}
    (h : chainPairsOK (a :: r) = true) : chainPairsOK r = true := by
  cases r with
  | nil => rfl
  | cons b r' =>
    exact (Bool.and_eq_true_iff.mp h).2

/-- Head pair of a pair chain. -/
theorem chainPairsOK_pair {a b : Char} {r : List Char}
    (h : chainPairsOK (a :: b :: r) = true) : pairOK a b = true :=
  (Bool.and_eq_true_iff.mp h).1

/-- Pair chains restrict to suffixes. -/
theorem chainPairsOK_suffix :
    ∀ {s t : List Char}, t <:+ s → chainPairsOK s = true →
      chainPairsOK t = true := by
  intro s t hsuf h
  obtain ⟨u, hu⟩ := hsuf
  induction u generalizing s with
  | nil =>
    rw [← hu] at h
    simpa using h
  | cons c u' ih =>
    cases s with
    | nil => exact absurd hu (by simp)
    | cons c' s' =>
      injection hu with h1 h2
      exact ih (chainPairsOK_tail h) h2

/-! ### The engine fixes strings no matcher fires on -/

/-- Master identity lemma for `subScanF`: if at every suffix the matcher
either fails or consumes exactly the head character reproducing it, the
scan is the identity. -/
theorem subScanF_id (m : List Char → Option (List Char × List Char)) :
    ∀ (fuel : ℕ) (s : List Char), s.length ≤ fuel →
      (∀ t, t <:+ s →
        m t = none ∨ ∃ c r, t = c :: r ∧ m t = some ([c], r)) →
      subScanF m fuel s = s := by
  intro fuel
  induction fuel with
  | zero => intro s _ _; rfl
  | succ f ih =>
    intro s hlen h
    cases s with
    | nil => rfl
    | cons c cs =>
      rcases h (c :: cs) (List.suffix_refl _) with hm | ⟨c', r, heq, hm⟩
      · rw [show subScanF m (f + 1) (c :: cs) = c :: subScanF m f cs from by
          simp [subScanF, hm]]
        rw [ih cs (by simpa using hlen)
          (fun t ht => h t (ht.trans (List.suffix_cons c cs)))]
      · cases heq
        rw [show subScanF m (f + 1) (c :: cs) = [c] ++ subScanF m f cs from by
          simp [subScanF, hm]]
        rw [ih cs (by simpa using hlen)
          (fun t ht => h t (ht.trans (List.suffix_cons c cs)))]
        rfl

/-- `applySub` identity from the per-suffix matcher condition. -/
theorem applySub_id (m : List Char → Option (List Char × List Char))
    (s : List Char)
    (h : ∀ t, t <:+ s →
      m t = none ∨ ∃ c r, t = c :: r ∧ m t = some ([c], r)) :
    applySub m s = s :=
  subScanF_id m s.length s (le_refl _) h

/-- Off line starts the ML engine copies its input (when there is no
newline to open a new line). -/
theorem subScanMLF_false_id
    (m : List Char → Option (List Char × List Char × Bool)) :
    ∀ (fuel : ℕ) (t : List Char), (∀ c ∈ t, c ≠ '\n') →
      subScanMLF m fuel false t = t := by
  intro fuel
  induction fuel with
  | zero => intro t _; rfl
  | succ f ih =>
    intro t hnl
    cases t with
    | nil => rfl
    | cons c cs =>
      have hc : decide (c = '\n') = false := by
        simp [hnl c (List.mem_cons_self c cs)]
      rw [show subScanMLF m (f + 1) false (c :: cs) =
            c :: subScanMLF m f (decide (c = '\n')) cs from by
        simp [subScanMLF]]
      rw [hc, ih cs (fun x hx => hnl x (List.mem_cons_of_mem _ hx))]

/-- `applySubML` identity: no match at the start of a newline-free
string. -/
theorem applySubML_id
    (m : List Char → Option (List Char × List Char × Bool))
    (s : List Char) (h0 : m s = none) (hnl : ∀ c ∈ s, c ≠ '\n') :
    applySubML m s = s := by
  unfold applySubML
  cases s with
  | nil => rfl
  | cons c cs =>
    have hc : decide (c = '\n') = false := by
      simp [hnl c (List.mem_cons_self c cs)]
    rw [show subScanMLF m (c :: cs).length true (c :: cs) =
          c :: subScanMLF m (c :: cs).length.pred (decide (c = '\n')) cs from by
      simp [subScanMLF, h0]]
    rw [hc, subScanMLF_false_id m _ cs
      (fun x hx => hnl x (List.mem_cons_of_mem _ hx))]

/-! ### `remove_markdown` fixes clean strings -/

/-- A delimiter pattern cannot match without its opening character. -/
theorem mDelim_none {x : Char} (d' : List Char) :
    ∀ (t : List Char), (∀ c ∈ t, c ≠ x) → mDelim (x :: d') t = none := by
  intro t h
  cases t with
  | nil =>
    unfold mDelim
    rw [if_neg]
    simp [List.isPrefixOf]
  | cons c r =>
    unfold mDelim
    rw [if_neg]
    intro hpre
    simp only [List.isPrefixOf, Bool.and_eq_true, beq_iff_eq] at hpre
    exact h c (List.mem_cons_self c r) hpre.1.symm

/-- A code fence cannot match without a backtick. -/
theorem mCodeBlock_none :
    ∀ (t : List Char), (∀ c ∈ t, c ≠ btick) → mCodeBlock t = none := by
  intro t h
  cases t with
  | nil =>
    unfold mCodeBlock
    rw [if_neg]
    simp [List.isPrefixOf]
  | cons c r =>
    unfold mCodeBlock
    rw [if_neg]
    intro hpre
    simp only [List.isPrefixOf, Bool.and_eq_true, beq_iff_eq] at hpre
    exact h c (List.mem_cons_self c r) hpre.1.symm

/-- A markdown link cannot match without an opening bracket. -/
theorem mLink_none :
    ∀ (t : List Char), (∀ c ∈ t, c ≠ '[') → mLink t = none := by
  intro t h
  unfold mLink
  split
  · exact absurd rfl (h '[' (List.mem_cons_self _ _))
  · rfl

/-- A markdown image cannot match without an opening bracket. -/
theorem mImage_none :
    ∀ (t : List Char), (∀ c ∈ t, c ≠ '[') → mImage t = none := by
  intro t h
  unfold mImage
  split
  · exact absurd rfl (h '[' (List.mem_cons_of_mem _ (List.mem_cons_self _ _)))
  · rfl

/-- A header cannot match without a leading hash. -/
theorem mHeader_none :
    ∀ (s : List Char), (∀ c, s.head? = some c → c ≠ '#') →
      mHeader s = none := by
  intro s h
  have hcount : hashCount s = 0 := by
    cases s with
    | nil => rfl
    | cons c r =>
      unfold hashCount
      rw [if_neg (h c rfl)]
  unfold mHeader
  rw [hcount]
  rw [if_neg]
  omega

/-- A horizontal rule cannot match without a leading rule character. -/
theorem mHr_none :
    ∀ (s : List Char), (∀ c, s.head? = some c → isHrChar c = false) →
      mHr s = none := by
  intro s h
  have hrun : s.takeWhile isHrChar = [] := by
    cases s with
    | nil => rfl
    | cons c r => exact List.takeWhile_cons_of_neg (by simp [h c rfl])
  unfold mHr
  rw [hrun]
  rw [if_pos]
  simp

/-- A blockquote cannot match without a leading angle. -/
theorem mBlockquote_none :
    ∀ (s : List Char), (∀ c, s.head? = some c → c ≠ '>') →
      mBlockquote s = none := by
  intro s h
  unfold mBlockquote
  split
  · exact absurd rfl (h '>' rfl)
  · rfl

/-- A bullet item cannot match on a string starting with a clean
non-whitespace character. -/
theorem mBullet_none :
    ∀ (s : List Char),
      (∀ c, s.head? = some c → isWsChar c = false ∧ cleanChar c = true) →
      mBullet s = none := by
  intro s h
  cases s with
  | nil => rfl
  | cons c r =>
    obtain ⟨hws, hclean⟩ := h c rfl
    unfold mBullet
    rw [List.dropWhile_cons_of_neg (by simp [hws])]
    dsimp only
    have e1 : c ≠ '-' := cleanChar_ne hclean (by decide)
    have e2 : c ≠ '*' := cleanChar_ne hclean (by decide)
    have e3 : c ≠ '+' := cleanChar_ne hclean (by decide)
    simp [e1, e2, e3]

/-- A numbered item cannot match on a string starting with a clean
non-digit non-whitespace character. -/
theorem mNumbered_none :
    ∀ (s : List Char),
      (∀ c, s.head? = some c →
        isWsChar c = false ∧ c.isDigit = false) →
      mNumbered s = none := by
  intro s h
  cases s with
  | nil => rfl
  | cons c r =>
    obtain ⟨hws, hdig⟩ := h c rfl
    unfold mNumbered
    dsimp only
    rw [List.dropWhile_cons_of_neg (by simp [hws])]
    rw [List.takeWhile_cons_of_neg (by simp [hdig])]
    rw [if_pos rfl]

/-- First pass bundle: on a clean string every `remove_markdown` pass is
the identity. -/
theorem remove_markdown_id (s : List Char)
    (hall : ∀ c ∈ s, cleanChar c = true)
    (hfirst : ∀ c, s.head? = some c →
      isWsChar c = false ∧ c.isDigit = false) :
    remove_markdown s = s := by
  have hnl : ∀ c ∈ s, c ≠ '\n' := fun c hc =>
    cleanChar_ne (hall c hc) (by decide)
  have hsufhead : ∀ (x : Char), cleanChar x = false → ∀ t, t <:+ s →
      ∀ c ∈ t, c ≠ x := by
    intro x hx t ht c hc
    exact cleanChar_ne (hall c (ht.subset hc)) hx
  have hdelim : ∀ (x : Char) (d' : List Char), cleanChar x = false →
      applySub (mDelim (x :: d')) s = s := by
    intro x d' hx
    apply applySub_id
    intro t ht
    exact Or.inl (mDelim_none d' t (hsufhead x hx t ht))
  have hheadclean : ∀ c, s.head? = some c → cleanChar c = true := by
    intro c hc
    cases s with
    | nil => exact absurd hc (by simp)
    | cons d r =>
      injection hc with hc
      subst hc
      exact hall _ (List.mem_cons_self _ _)
  have h1 : applySubML mHeader s = s := by
    apply applySubML_id _ _ _ hnl
    apply mHeader_none
    intro c hc
    exact cleanChar_ne (hheadclean c hc) (by decide)
  have h2 := hdelim '*' ['*', '*'] (by decide)
  have h3 := hdelim '*' ['*'] (by decide)
  have h4 := hdelim '*' [] (by decide)
  have h5 := hdelim '_' ['_', '_'] (by decide)
  have h6 := hdelim '_' ['_'] (by decide)
  have h7 := hdelim '_' [] (by decide)
  have h8 : applySub (mDelim [btick]) s = s :=
    hdelim btick [] (by decide)
  have h9 : applySub mCodeBlock s = s := by
    apply applySub_id
    intro t ht
    exact Or.inl (mCodeBlock_none t (hsufhead btick (by decide) t ht))
  have h10 : applySub mLink s = s := by
    apply applySub_id
    intro t ht
    exact Or.inl (mLink_none t (hsufhead '[' (by decide) t ht))
  have h11 : applySub mImage s = s := by
    apply applySub_id
    intro t ht
    exact Or.inl (mImage_none t (hsufhead '[' (by decide) t ht))
  have h12 : applySubML mHr s = s := by
    apply applySubML_id _ _ _ hnl
    apply mHr_none
    intro c hc
    have hc' := hheadclean c hc
    have e1 : c ≠ '-' := cleanChar_ne hc' (by decide)
    have e2 : c ≠ '*' := cleanChar_ne hc' (by decide)
    have e3 : c ≠ '_' := cleanChar_ne hc' (by decide)
    simp [isHrChar, e1, e2, e3]
  have h13 : applySubML mBlockquote s = s := by
    apply applySubML_id _ _ _ hnl
    apply mBlockquote_none
    intro c hc
    exact cleanChar_ne (hheadclean c hc) (by decide)
  have h14 : applySubML mBullet s = s := by
    apply applySubML_id _ _ _ hnl
    apply mBullet_none
    intro c hc
    exact ⟨(hfirst c hc).1, hheadclean c hc⟩
  have h15 : applySubML mNumbered s = s := by
    apply applySubML_id _ _ _ hnl
    apply mNumbered_none
    intro c hc
    exact hfirst c hc
  unfold remove_markdown
  dsimp only
  rw [h1, h2, h3, h4, h5, h6, h7, h8, h9, h10, h11, h12, h13, h14, h15]

/-! ### `normalize_punctuation` fixes clean strings -/

/-- The clean pair condition forbids a double space. -/
theorem pairOK_space_space {a b : Char} (h : pairOK a b = true)
    (ha : a = ' ') (hb : b = ' ') : False := by
  subst ha; subst hb; exact absurd h (by decide)

/-- The clean pair condition forbids a space before punctuation. -/
theorem pairOK_space_punct {a b : Char} (h : pairOK a b = true)
    (ha : a = ' ') (hb : isPunctCh b = true) : False := by
  subst ha
  simp [pairOK, hb] at h

/-- The clean pair condition forbids punctuation glued to a letter. -/
theorem pairOK_punct_letter {a b : Char} (h : pairOK a b = true)
    (ha : isPunctCh a = true) (hb : isAsciiLetter b = true) : False := by
  simp [pairOK, ha, hb] at h

/-- The clean pair condition forbids a double period. -/
theorem pairOK_dots {a b : Char} (h : pairOK a b = true)
    (ha : a = '.') (hb : b = '.') : False := by
  subst ha; subst hb; exact absurd h (by decide)

/-- The clean pair condition forbids a double comma. -/
theorem pairOK_commas {a b : Char} (h : pairOK a b = true)
    (ha : a = ',') (hb : b = ',') : False := by
  subst ha; subst hb; exact absurd h (by decide)

/-- `str.replace` with an absent character is the identity. -/
theorem replaceAllChar_id (c : Char) (rep : List Char) :
    ∀ (s : List Char), c ∉ s → replaceAllChar c rep s = s := by
  intro s
  induction s with
  | nil => intro _; rfl
  | cons d r ih =>
    intro h
    have hd : d ≠ c := fun he => h (he ▸ List.mem_cons_self d r)
    unfold replaceAllChar at ih ⊢
    rw [List.flatMap_cons, if_neg hd, ih (fun hm => h (List.mem_cons_of_mem _ hm))]
    rfl

/-- The period-run pattern needs two leading periods. -/
theorem mDotRun_none (t : List Char)
    (h : match t with
         | c :: d :: _ => ¬(c = '.' ∧ d = '.')
         | _ => True) : mDotRun t = none := by
  cases t with
  | nil => rfl
  | cons c r =>
    cases r with
    | nil =>
      by_cases hc : c = '.'
      · subst hc; rfl
      · unfold mDotRun
        rw [List.takeWhile_cons_of_neg (by simp [hc])]
        rfl
    | cons d r' =>
      by_cases hc : c = '.'
      · subst hc
        have hd : d ≠ '.' := fun hd => h ⟨rfl, hd⟩
        unfold mDotRun
        rw [List.takeWhile_cons_of_pos (by simp),
          List.takeWhile_cons_of_neg (by simp [hd])]
        rw [if_neg (by simp)]
      · unfold mDotRun
        rw [List.takeWhile_cons_of_neg (by simp [hc])]
        rfl

/-- A wrap pattern needs its opening character. -/
theorem mWrap_none (op cl : Char) (wrap : List Char → List Char)
    (t : List Char) (h : ∀ c, t.head? = some c → c ≠ op) :
    mWrap op cl wrap t = none := by
  cases t with
  | nil => rfl
  | cons c r =>
    unfold mWrap
    dsimp only
    rw [if_neg (h c rfl)]

/-- A hashtag needs a leading hash. -/
theorem mHashtag_none (t : List Char) (h : ∀ c, t.head? = some c → c ≠ '#') :
    mHashtag t = none := by
  unfold mHashtag
  split
  · exact absurd rfl (h '#' rfl)
  · rfl

/-- A citation needs a leading bracket. -/
theorem mCitation_none (t : List Char) (h : ∀ c, t.head? = some c → c ≠ '[') :
    mCitation t = none := by
  unfold mCitation
  split
  · exact absurd rfl (h '[' rfl)
  · rfl

/-- A star run needs a leading star. -/
theorem mStars_none (t : List Char) (h : ∀ c, t.head? = some c → c ≠ '*') :
    mStars t = none := by
  unfold mStars
  split
  · exact absurd rfl (h '*' rfl)
  · rfl

/-- A URL match needs a slash. -/
theorem mUrl_none (t : List Char) (h : '/' ∉ t) : mUrl t = none := by
  have hdrop : ∀ x : Char, x ∈ List.drop 4 t → x ∈ t := fun x hx =>
    List.mem_of_mem_drop hx
  unfold mUrl
  split
  · dsimp only
    have hnone : (match List.drop 4 t with
        | 's' :: ':' :: '/' :: '/' :: r => some r
        | ':' :: '/' :: '/' :: r => some r
        | _ => none) = (none : Option (List Char)) := by
      split
      · rename_i heq
        exact absurd (hdrop '/' (by rw [heq]; simp)) h
      · rename_i heq
        exact absurd (hdrop '/' (by rw [heq]; simp)) h
      · rfl
    rw [hnone]
  · rfl

/-- A successful email scan contains an `@`. -/
theorem emailGo_mem : ∀ (r : List Char), emailGo r = true → '@' ∈ r := by
  intro r
  induction r with
  | nil => intro h; exact absurd h (by decide)
  | cons c r' ih =>
    intro h
    by_cases hc : c = '@'
    · subst hc; exact List.mem_cons_self _ _
    · unfold emailGo at h
      rw [if_neg hc] at h
      exact List.mem_cons_of_mem _ (ih h)

/-- A matching email run contains an `@`. -/
theorem emailish_mem (l : List Char) (h : emailish l = true) : '@' ∈ l := by
  cases l with
  | nil => exact absurd h (by decide)
  | cons c r => exact List.mem_cons_of_mem _ (emailGo_mem r h)

/-- An email match needs an `@`. -/
theorem mEmail_none (t : List Char) (h : '@' ∉ t) : mEmail t = none := by
  cases t with
  | nil => rfl
  | cons c r =>
    unfold mEmail
    dsimp only
    by_cases hws : isWsChar c = true
    · rw [if_pos hws]
    · rw [if_neg hws]
      have hfalse : emailish ((c :: r).takeWhile fun x => decide (¬isWsChar x = true)) = false := by
        cases he : emailish ((c :: r).takeWhile fun x => decide (¬isWsChar x = true)) with
        | false => rfl
        | true =>
          exact absurd ((List.takeWhile_prefix _).subset (emailish_mem _ he)) h
      rw [hfalse]
      rfl

/-- On a clean string every `normalize_punctuation` pass is the
identity. -/
theorem normalize_punctuation_id (s : List Char)
    (hall : ∀ c ∈ s, cleanChar c = true)
    (hchain : chainPairsOK s = true) :
    normalize_punctuation s = s := by
  have hnotin : ∀ (x : Char), cleanChar x = false → x ∉ s := by
    intro x hx hmem
    exact absurd (hall x hmem) (by simp [hx])
  have hsufhead : ∀ (x : Char), cleanChar x = false → ∀ t, t <:+ s →
      ∀ c, t.head? = some c → c ≠ x := by
    intro x hx t ht c hc
    cases t with
    | nil => exact absurd hc (by simp)
    | cons d r =>
      injection hc with hc
      subst hc
      exact cleanChar_ne (hall _ (ht.subset (List.mem_cons_self _ _))) hx
  have hwrap : ∀ (op cl : Char) (wrap : List Char → List Char),
      cleanChar op = false → applySub (mWrap op cl wrap) s = s := by
    intro op cl wrap hop
    apply applySub_id
    intro t ht
    exact Or.inl (mWrap_none op cl wrap t (hsufhead op hop t ht))
  have hd1 := replaceAllChar_id emDash [',', ' '] s (hnotin emDash (by decide))
  have hd2 := replaceAllChar_id enDash [',', ' '] s (hnotin enDash (by decide))
  have hd3 := replaceAllChar_id hellip ['.'] s (hnotin hellip (by decide))
  have hdot : applySub mDotRun s = s := by
    apply applySub_id
    intro t ht
    refine Or.inl (mDotRun_none t ?_)
    cases t with
    | nil => trivial
    | cons c r =>
      cases r with
      | nil => trivial
      | cons d r' =>
        have hp := chainPairsOK_pair (chainPairsOK_suffix ht hchain)
        exact fun hcd => pairOK_dots hp hcd.1 hcd.2
  have hw1 := hwrap '(' ')' (fun c => [',', ' '] ++ c ++ [',', ' ']) (by decide)
  have hw2 := hwrap '[' ']' (fun c => [',', ' '] ++ c ++ [',', ' ']) (by decide)
  have hw3 := hwrap lbraceCh rbraceCh (fun c => c) (by decide)
  have hw4 := hwrap '<' '>' (fun _ => []) (by decide)
  have hw5 := hwrap '"' '"' (fun c => c) (by decide)
  have hw6 := hwrap apos apos (fun c => c) (by decide)
  have hw7 := hwrap lqD rqD (fun c => c) (by decide)
  have hw8 := hwrap lqS rqS (fun c => c) (by decide)
  have hhash : applySub mHashtag s = s := by
    apply applySub_id
    intro t ht
    exact Or.inl (mHashtag_none t (hsufhead '#' (by decide) t ht))
  have hcit : applySub mCitation s = s := by
    apply applySub_id
    intro t ht
    exact Or.inl (mCitation_none t (hsufhead '[' (by decide) t ht))
  have hstars : applySub mStars s = s := by
    apply applySub_id
    intro t ht
    exact Or.inl (mStars_none t (hsufhead '*' (by decide) t ht))
  have hurl : applySub mUrl s = s := by
    apply applySub_id
    intro t ht
    refine Or.inl (mUrl_none t ?_)
    intro hmem
    exact absurd (hall _ (ht.subset hmem)) (by decide)
  have hemail : applySub mEmail s = s := by
    apply applySub_id
    intro t ht
    refine Or.inl (mEmail_none t ?_)
    intro hmem
    exact absurd (hall _ (ht.subset hmem)) (by decide)
  unfold normalize_punctuation
  dsimp only
  rw [hd1, hd2, hd3, hdot, hw1, hw2, hw3, hw4, hw5, hw6, hw7, hw8, hhash,
    hcit, hstars, hurl, hemail]

/-! ### `normalize_whitespace` fixes clean strings -/

/-- A newline run needs a leading newline. -/
theorem mNlRun_none (t : List Char) (h : ∀ c, t.head? = some c → c ≠ '\n') :
    mNlRun t = none := by
  cases t with
  | nil => rfl
  | cons c r =>
    unfold mNlRun
    rw [List.takeWhile_cons_of_neg (by simp [h c rfl])]
    rw [if_neg (by simp)]

/-- Whitespace-before-punctuation cannot match a clean string suffix. -/
theorem mWsPunct_none (t : List Char)
    (hall : ∀ c ∈ t, cleanChar c = true)
    (hchain : chainPairsOK t = true) : mWsPunct t = none := by
  cases t with
  | nil => rfl
  | cons c r =>
    unfold mWsPunct
    dsimp only
    by_cases hws : isWsChar c = true
    · rw [if_pos hws]
      have hc : c = ' ' :=
        cleanChar_ws_eq_space (hall c (List.mem_cons_self c r)) hws
      subst hc
      cases r with
      | nil => rfl
      | cons d r' =>
        have hpair := chainPairsOK_pair hchain
        have hd : isWsChar d = false := by
          cases hdw : isWsChar d with
          | false => rfl
          | true =>
            have : d = ' ' :=
              cleanChar_ws_eq_space
                (hall d (List.mem_cons_of_mem _ (List.mem_cons_self d r'))) hdw
            exact absurd (pairOK_space_space hpair rfl this) (fun x => x)
        rw [show List.dropWhile isWsChar (' ' :: d :: r') = d :: r' from by
          rw [List.dropWhile_cons_of_pos (by decide),
            List.dropWhile_cons_of_neg (by simp [hd])]]
        have hdp : isPunctCh d = false := by
          cases hdp : isPunctCh d with
          | false => rfl
          | true => exact absurd (pairOK_space_punct hpair rfl hdp) (fun x => x)
        show (if isPunctCh d = true then some ([d], r') else none) = none
        rw [if_neg (by simp [hdp])]
    · rw [if_neg hws]

/-- Punctuation-glued-to-letter cannot match a clean string suffix. -/
theorem mPunctLetter_none (t : List Char)
    (hchain : chainPairsOK t = true) : mPunctLetter t = none := by
  cases t with
  | nil => rfl
  | cons p r =>
    cases r with
    | nil => rfl
    | cons c2 r' =>
      unfold mPunctLetter
      show (if (isPunctCh p && isAsciiLetter c2) = true
          then some ([p, ' ', c2], r') else none) = none
      rw [if_neg]
      intro hcontra
      obtain ⟨h1, h2⟩ := Bool.and_eq_true_iff.mp hcontra
      exact pairOK_punct_letter (chainPairsOK_pair hchain) h1 h2

/-- A comma run cannot match a clean string suffix. -/
theorem mCommaRun_none (t : List Char)
    (hall : ∀ c ∈ t, cleanChar c = true)
    (hchain : chainPairsOK t = true) : mCommaRun t = none := by
  cases t with
  | nil => rfl
  | cons c r =>
    unfold mCommaRun
    split
    · rename_i heq
      injection heq with hc hr
      subst hc
      subst hr
      cases r with
      | nil => rfl
      | cons d r' =>
        have hpair1 := chainPairsOK_pair hchain
        have hdcomma : d ≠ ',' := fun hd => pairOK_commas hpair1 rfl hd
        by_cases hdw : isWsChar d = true
        · have hd : d = ' ' :=
            cleanChar_ws_eq_space
              (hall d (List.mem_cons_of_mem _ (List.mem_cons_self d r'))) hdw
          subst hd
          rw [List.dropWhile_cons_of_pos (by decide)]
          cases r' with
          | nil => rfl
          | cons e r'' =>
            have hpair2 := chainPairsOK_pair (chainPairsOK_tail hchain)
            have hew : isWsChar e = false := by
              cases hew : isWsChar e with
              | false => rfl
              | true =>
                have : e = ' ' :=
                  cleanChar_ws_eq_space (hall e (by simp)) hew
                exact absurd (pairOK_space_space hpair2 rfl this) (fun x => x)
            have hep : isPunctCh e = false := by
              cases hep : isPunctCh e with
              | false => rfl
              | true => exact absurd (pairOK_space_punct hpair2 rfl hep) (fun x => x)
            rw [List.dropWhile_cons_of_neg (by simp [hew])]
            have hecomma : e ≠ ',' := by
              intro he
              rw [he] at hep
              exact absurd hep (by decide)
            dsimp only
            split
            · rename_i heq2
              injection heq2 with h1 _
              exact absurd h1 hecomma
            · rfl
        · rw [List.dropWhile_cons_of_neg (by simp [hdw])]
          dsimp only
          split
          · rename_i heq2
            injection heq2 with h1 _
            exact absurd h1 hdcomma
          · rfl
    · rfl

/-- Newline splitting of a newline-free string. -/
theorem splitNlAux_no_nl :
    ∀ (s acc : List Char), (∀ c ∈ s, c ≠ '\n') →
      splitNlAux acc s = [acc.reverse ++ s] := by
  intro s
  induction s with
  | nil => intro acc _; simp [splitNlAux]
  | cons c r ih =>
    intro acc h
    unfold splitNlAux
    rw [if_neg (h c (List.mem_cons_self c r))]
    rw [ih (c :: acc) (fun x hx => h x (List.mem_cons_of_mem _ hx))]
    simp

/-- On a clean string every `normalize_whitespace` pass is the
identity. -/
theorem normalize_whitespace_id (s : List Char)
    (hall : ∀ c ∈ s, cleanChar c = true)
    (hchain : chainPairsOK s = true)
    (hhead : ∀ c, s.head? = some c → isWsChar c = false)
    (hlast : ∀ c, s.getLast? = some c → isWsChar c = false) :
    normalize_whitespace s = s := by
  rcases hs : s with _ | ⟨c0, s0⟩
  · decide
  rw [← hs]
  have hsne : s ≠ [] := by rw [hs]; simp
  have hsufall : ∀ t, t <:+ s → ∀ c ∈ t, cleanChar c = true :=
    fun t ht c hc => hall c (ht.subset hc)
  have h1 : applySub mSpaceTab s = s := by
    apply applySub_id
    intro t ht
    cases t with
    | nil => exact Or.inl rfl
    | cons c r =>
      by_cases hst : isSpaceTab c = true
      · right
        refine ⟨c, r, rfl, ?_⟩
        have hc : c = ' ' := by
          have hcl := hall c (ht.subset (List.mem_cons_self c r))
          rcases Bool.or_eq_true_iff.mp hst with h | h
          · exact (by simpa using h)
          · exact absurd hcl
              (by rw [show c = '\t' from by simpa using h]; decide)
        subst hc
        unfold mSpaceTab
        show (if isSpaceTab ' ' = true
            then some ([' '], List.dropWhile isSpaceTab (' ' :: r))
            else none) = some ([' '], r)
        rw [if_pos (by decide)]
        rw [List.dropWhile_cons_of_pos (by decide)]
        cases r with
        | nil => rfl
        | cons d r' =>
          have hpair := chainPairsOK_pair (chainPairsOK_suffix ht hchain)
          have hdcl := hall d (ht.subset (by simp))
          have hd : isSpaceTab d = false := by
            cases hdst : isSpaceTab d with
            | false => rfl
            | true =>
              rcases Bool.or_eq_true_iff.mp hdst with h | h
              · exact absurd (pairOK_space_space hpair rfl (by simpa using h))
                  (fun x => x)
              · exact absurd hdcl
                  (by rw [show d = '\t' from by simpa using h]; decide)
          rw [List.dropWhile_cons_of_neg (by simp [hd])]
      · left
        unfold mSpaceTab
        show (if isSpaceTab c = true
            then some ([' '], List.dropWhile isSpaceTab (c :: r))
            else none) = none
        rw [if_neg hst]
  have h2 : applySub mNlRun s = s := by
    apply applySub_id
    intro t ht
    refine Or.inl (mNlRun_none t ?_)
    intro c hc
    cases t with
    | nil => exact absurd hc (by simp)
    | cons d r =>
      injection hc with hc
      subst hc
      exact cleanChar_ne (hall _ (ht.subset (List.mem_cons_self _ _))) (by decide)
  have h3 : applySub mWsPunct s = s := by
    apply applySub_id
    intro t ht
    exact Or.inl (mWsPunct_none t (hsufall t ht) (chainPairsOK_suffix ht hchain))
  have h4 : applySub mPunctLetter s = s := by
    apply applySub_id
    intro t ht
    exact Or.inl (mPunctLetter_none t (chainPairsOK_suffix ht hchain))
  have h5 : applySub mCommaRun s = s := by
    apply applySub_id
    intro t ht
    exact Or.inl (mCommaRun_none t (hsufall t ht) (chainPairsOK_suffix ht hchain))
  have hnl : ∀ c ∈ s, c ≠ '\n' := fun c hc =>
    cleanChar_ne (hall c hc) (by decide)
  have hstrip : pyStrip s = s := pyStrip_eq_self s hhead hlast
  unfold normalize_whitespace
  dsimp only
  rw [h1, h2, h3, h4, h5]
  rw [splitNlAux_no_nl s [] hnl]
  simp only [List.reverse_nil, List.nil_append, List.map_cons, List.map_nil]
  rw [hstrip]
  rw [show List.filter (fun l => decide (l ≠ [])) [s] = [s] from by
    simp [List.filter, hsne]]
  rw [intercalate_singleton, hstrip]

/-! ### Sentence splitting, truncation and the C5 idempotence theorems -/

theorem splitSentF_step_pos (f : Nat) (acc : List Char) (c e : Char)
    (r3 : List Char) (hterm : isTermCh c = true)
    (hew : isWsChar e = false) :
    splitSentF (f + 1) acc (c :: ' ' :: e :: r3) =
      (c :: acc).reverse :: splitSentF f [] (e :: r3) := by
  conv_lhs => unfold splitSentF
  rw [hterm]
  have hc2 : (true && (match ' ' :: e :: r3 with
      | d :: _ => isWsChar d | [] => false)) = true := rfl
  rw [if_pos hc2]
  rw [List.dropWhile_cons_of_pos (by decide),
    List.dropWhile_cons_of_neg (by simp [hew])]

theorem splitSentF_step_neg (f : Nat) (acc : List Char) (c : Char)
    (r : List Char)
    (hcond : (isTermCh c &&
      (match r with | d :: _ => isWsChar d | [] => false)) = false) :
    splitSentF (f + 1) acc (c :: r) = splitSentF f (c :: acc) r := by
  conv_lhs => unfold splitSentF
  rw [hcond]
  rw [if_neg (by decide)]


def sentBreakAfter : List Char → Bool
  | d :: _ => isWsChar d
  | [] => false

theorem splitSentF_step_negB (f : Nat) (acc : List Char) (c : Char) :
    ∀ (r : List Char), (isTermCh c && sentBreakAfter r) = false →
      splitSentF (f + 1) acc (c :: r) = splitSentF f (c :: acc) r := by
  intro r hcond
  cases r with
  | nil => exact splitSentF_step_neg f acc c [] hcond
  | cons d r2 => exact splitSentF_step_neg f acc c (d :: r2) hcond

theorem splitSentF_ne_nil :
    ∀ (fuel : Nat) (acc s : List Char), splitSentF fuel acc s ≠ [] := by
  intro fuel
  induction fuel with
  | zero =>
    intro acc s
    cases s <;> simp [splitSentF]
  | succ f ih =>
    intro acc s
    cases s with
    | nil => simp [splitSentF]
    | cons c r =>
      unfold splitSentF
      split
      · simp
      · exact ih (c :: acc) r

theorem splitSentF_nil_arg (fuel : Nat) (acc : List Char) :
    splitSentF fuel acc [] = [acc.reverse] := by
  cases fuel <;> rfl

theorem head?_append_cons (l : List Char) (c : Char) (r1 r2 : List Char) :
    (l ++ c :: r1).head? = (l ++ c :: r2).head? := by
  cases l <;> rfl

theorem getLast?_append_right (l t : List Char) (ht : t ≠ []) :
    (l ++ t).getLast? = t.getLast? := by
  rw [List.getLast?_append]
  cases h : t.getLast? with
  | some x => rfl
  | none => exact absurd (List.getLast?_eq_none_iff.mp h) ht

theorem intercalate_cons_cons (a b : List Char) (rest : List (List Char)) :
    List.intercalate [' '] (a :: b :: rest) =
      a ++ ' ' :: List.intercalate [' '] (b :: rest) := by
  simp [List.intercalate, List.intersperse]

theorem splitSentF_clean_nil (fuel : Nat) (acc : List Char)
    (hhead : ∀ c, (acc.reverse ++ ([] : List Char)).head? = some c →
      isWsChar c = false)
    (hlast : ∀ c, (acc.reverse ++ ([] : List Char)).getLast? = some c →
      isWsChar c = false)
    (hne : acc.reverse ++ ([] : List Char) ≠ []) :
    List.intercalate [' '] (splitSentF fuel acc []) = acc.reverse ++ [] ∧
      ∀ p ∈ splitSentF fuel acc [], p ≠ [] ∧
        (∀ c, p.head? = some c → isWsChar c = false) ∧
        (∀ c, p.getLast? = some c → isWsChar c = false) := by
  simp only [List.append_nil] at hhead hlast hne ⊢
  rw [splitSentF_nil_arg]
  refine ⟨intercalate_singleton _, ?_⟩
  intro p hp
  rw [List.mem_singleton] at hp
  subst hp
  exact ⟨hne, hhead, hlast⟩

theorem splitSentF_clean :
    ∀ (fuel : Nat) (acc s : List Char),
      s.length ≤ fuel →
      (∀ c ∈ s, cleanChar c = true) →
      chainPairsOK s = true →
      (∀ c, (acc.reverse ++ s).head? = some c → isWsChar c = false) →
      (∀ c, (acc.reverse ++ s).getLast? = some c → isWsChar c = false) →
      acc.reverse ++ s ≠ [] →
      List.intercalate [' '] (splitSentF fuel acc s) = acc.reverse ++ s ∧
        ∀ p ∈ splitSentF fuel acc s, p ≠ [] ∧
          (∀ c, p.head? = some c → isWsChar c = false) ∧
          (∀ c, p.getLast? = some c → isWsChar c = false) := by
  intro fuel
  induction fuel with
  | zero =>
    intro acc s hlen hall hchain hhead hlast hne
    cases s with
    | nil => exact splitSentF_clean_nil 0 acc hhead hlast hne
    | cons c r => simp at hlen
  | succ f ih =>
    intro acc s hlen hall hchain hhead hlast hne
    cases s with
    | nil => exact splitSentF_clean_nil (f + 1) acc hhead hlast hne
    | cons c r =>
      by_cases hcond : (isTermCh c && sentBreakAfter r) = true
      · obtain ⟨hterm, hmatch⟩ := Bool.and_eq_true_iff.mp hcond
        rcases r with _ | ⟨d, r2⟩
        · exact absurd hmatch (by decide)
        have hdws : isWsChar d = true := hmatch
        have hdcl : cleanChar d = true :=
          hall d (List.mem_cons_of_mem _ (List.mem_cons_self d r2))
        have hd : d = ' ' := cleanChar_ws_eq_space hdcl hdws
        subst hd
        rcases r2 with _ | ⟨e, r3⟩
        · exfalso
          have hl : (acc.reverse ++ [c, ' ']).getLast? = some ' ' := by
            rw [getLast?_append_right _ _ (by simp)]
            rfl
          have := hlast ' ' hl
          exact absurd this (by decide)
        have hpair : pairOK ' ' e = true :=
          chainPairsOK_pair (chainPairsOK_tail hchain)
        have hecl : cleanChar e = true := hall e (by simp)
        have hew : isWsChar e = false := by
          cases hew : isWsChar e with
          | false => rfl
          | true =>
            exact absurd (pairOK_space_space hpair rfl
              (cleanChar_ws_eq_space hecl hew)) (fun x => x)
        rw [splitSentF_step_pos f acc c e r3 hterm hew]
        have hlen2 : (e :: r3).length ≤ f := by
          simp only [List.length_cons] at hlen ⊢
          omega
        have hall2 : ∀ x ∈ e :: r3, cleanChar x = true := fun x hx =>
          hall x (List.mem_cons_of_mem _ (List.mem_cons_of_mem _ hx))
        have hchain2 : chainPairsOK (e :: r3) = true :=
          chainPairsOK_tail (chainPairsOK_tail hchain)
        have hhead2 : ∀ x, (([] : List Char).reverse ++ e :: r3).head? = some x →
            isWsChar x = false := by
          intro x hx
          simp only [List.reverse_nil, List.nil_append, List.head?_cons] at hx
          injection hx with hx
          subst hx
          exact hew
        have hlast2 : ∀ x, (([] : List Char).reverse ++ e :: r3).getLast? = some x →
            isWsChar x = false := by
          intro x hx
          apply hlast x
          rw [show acc.reverse ++ c :: ' ' :: e :: r3 =
              (acc.reverse ++ [c, ' ']) ++ e :: r3 from by simp]
          rw [getLast?_append_right _ _ (by simp)]
          simpa using hx
        have hne2 : ([] : List Char).reverse ++ e :: r3 ≠ [] := by simp
        obtain ⟨ihJ, ihP⟩ := ih [] (e :: r3) hlen2 hall2 hchain2 hhead2 hlast2 hne2
        constructor
        · rcases hq : splitSentF f [] (e :: r3) with _ | ⟨p0, ps⟩
          · exact absurd hq (splitSentF_ne_nil f [] (e :: r3))
          rw [hq] at ihJ
          rw [intercalate_cons_cons, ihJ]
          simp
        · intro p hp
          rcases List.mem_cons.mp hp with hp | hp
          · subst hp
            refine ⟨by simp, ?_, ?_⟩
            · intro x hx
              rw [List.reverse_cons] at hx
              apply hhead x
              rw [head?_append_cons acc.reverse c (' ' :: e :: r3) []]
              exact hx
            · intro x hx
              rw [List.reverse_cons,
                getLast?_append_right _ _ (by simp)] at hx
              have hcx : c = x := by simpa using hx
              rw [← hcx]
              exact isTermCh_not_ws hterm
          · exact ihP p hp
      · have hcf : (isTermCh c && sentBreakAfter r) = false := by
          simpa using hcond
        rw [splitSentF_step_negB f acc c r hcf]
        have hasm : (c :: acc).reverse ++ r = acc.reverse ++ c :: r := by simp
        have hlen2 : r.length ≤ f := by
          simp only [List.length_cons] at hlen
          omega
        have hall2 : ∀ x ∈ r, cleanChar x = true := fun x hx =>
          hall x (List.mem_cons_of_mem _ hx)
        have hchain2 : chainPairsOK r = true := chainPairsOK_tail hchain
        have hhead2 : ∀ x, ((c :: acc).reverse ++ r).head? = some x →
            isWsChar x = false := by
          intro x hx
          rw [hasm] at hx
          exact hhead x hx
        have hlast2 : ∀ x, ((c :: acc).reverse ++ r).getLast? = some x →
            isWsChar x = false := by
          intro x hx
          rw [hasm] at hx
          exact hlast x hx
        have hne2 : (c :: acc).reverse ++ r ≠ [] := by
          rw [hasm]
          exact hne
        obtain ⟨ihJ, ihP⟩ := ih (c :: acc) r hlen2 hall2 hchain2 hhead2 hlast2 hne2
        exact ⟨by rw [ihJ]; exact hasm, ihP⟩

theorem split_sentences_clean (s : List Char)
    (hall : ∀ c ∈ s, cleanChar c = true)
    (hchain : chainPairsOK s = true)
    (hhead : ∀ c, s.head? = some c → isWsChar c = false)
    (hlast : ∀ c, s.getLast? = some c → isWsChar c = false)
    (hne : s ≠ []) :
    List.intercalate [' '] (split_sentences s) = s := by
  obtain ⟨ihJ, ihP⟩ := splitSentF_clean s.length [] s le_rfl hall hchain
    (by simpa using hhead) (by simpa using hlast) (by simpa using hne)
  have hmap : (splitSentF s.length [] s).map pyStrip =
      splitSentF s.length [] s := by
    rw [show splitSentF s.length [] s =
        (splitSentF s.length [] s).map id from (List.map_id _).symm]
    rw [List.map_map]
    apply List.map_congr_left
    intro p hp
    simp only [List.map_id] at hp
    exact pyStrip_eq_self p (ihP p hp).2.1 (ihP p hp).2.2
  have hfil : (splitSentF s.length [] s).filter (fun l => decide (l ≠ [])) =
      splitSentF s.length [] s := by
    apply List.filter_eq_self.mpr
    intro p hp
    simpa using (ihP p hp).1
  unfold split_sentences
  rw [hmap, hfil, ihJ]
  simp

theorem truncGo_all (maxW : Nat) :
    ∀ (sents acc : List (List Char)) (wc : Nat),
      wc + ((sents.map countWords).sum) ≤ maxW →
      truncGo maxW acc wc sents = acc.reverse ++ sents := by
  intro sents
  induction sents with
  | nil =>
    intro acc wc h
    simp [truncGo]
  | cons sent rest ih =>
    intro acc wc h
    simp only [List.map_cons, List.sum_cons] at h
    unfold truncGo
    dsimp only
    rw [if_pos (by omega)]
    rw [ih (sent :: acc) (wc + countWords sent) (by omega)]
    simp

theorem truncate_for_voice_clean (maxW : Nat) (sents : List (List Char))
    (hsum : ((sents.map countWords).sum) ≤ maxW) (hne : sents ≠ []) :
    truncate_for_voice sents maxW = List.intercalate [' '] sents := by
  unfold truncate_for_voice
  rw [if_neg hne]
  rw [truncGo_all maxW sents [] 0 (by omega)]
  simp

theorem sanitize_id_of_clean (maxW : Nat) (s : List Char)
    (h : cleanText maxW s = true) : sanitize_for_tts maxW s = s := by
  rcases s with _ | ⟨c0, s0⟩
  · rfl
  simp only [cleanText, Bool.and_eq_true, List.all_eq_true,
    decide_eq_true_eq] at h
  obtain ⟨⟨⟨⟨hall, hchain⟩, hheadb⟩, hlastb⟩, hcount⟩ := h
  have hc0 : cleanChar c0 = true := hall c0 (List.mem_cons_self c0 s0)
  obtain ⟨hc0d, hc0s⟩ := hheadb
  have hc0sp : c0 ≠ ' ' := by simpa using hc0s
  have hc0w : isWsChar c0 = false := by
    cases hw : isWsChar c0 with
    | false => rfl
    | true => exact absurd (cleanChar_ws_eq_space hc0 hw) hc0sp
  have hhead : ∀ x, (c0 :: s0).head? = some x → isWsChar x = false := by
    intro x hx
    injection hx with hx
    subst hx
    exact hc0w
  have hfirst : ∀ x, (c0 :: s0).head? = some x →
      isWsChar x = false ∧ x.isDigit = false := by
    intro x hx
    injection hx with hx
    subst hx
    exact ⟨hc0w, by simpa using hc0d⟩
  have hlast : ∀ x, (c0 :: s0).getLast? = some x → isWsChar x = false := by
    intro x hx
    have hxmem : x ∈ c0 :: s0 := List.mem_of_mem_getLast? hx
    have hxcl : cleanChar x = true := hall x hxmem
    rw [hx] at hlastb
    have hxsp : x ≠ ' ' := by simpa using hlastb
    cases hw : isWsChar x with
    | false => rfl
    | true => exact absurd (cleanChar_ws_eq_space hxcl hw) hxsp
  have h1 := remove_markdown_id (c0 :: s0) hall hfirst
  have h2 := normalize_punctuation_id (c0 :: s0) hall hchain
  have h3 := normalize_whitespace_id (c0 :: s0) hall hchain hhead hlast
  have hjoin := split_sentences_clean (c0 :: s0) hall hchain hhead hlast
    (by simp)
  have hsum : (((split_sentences (c0 :: s0)).map countWords).sum) ≤ maxW := by
    rw [← countWords_intercalate, hjoin]
    exact hcount
  have hsne2 : split_sentences (c0 :: s0) ≠ [] := by
    intro hc
    rw [hc] at hjoin
    exact absurd hjoin.symm (by simp [List.intercalate])
  have h4 := truncate_for_voice_clean maxW _ hsum hsne2
  have h5 : pyStrip (c0 :: s0) = c0 :: s0 := pyStrip_eq_self _ hhead hlast
  unfold sanitize_for_tts
  rw [if_neg (by simp)]
  dsimp only
  rw [h1, h2, h3, h4, hjoin, h5]
  rw [if_neg (by simp)]

/-- The sanitizer is not idempotent on arbitrary input: nested
parentheses survive one pass as a bracketed clause whose inner
parentheses were already rewritten, and the second pass rewrites the
remaining parentheses again, changing the text. -/
theorem sanitize_for_tts_not_idempotent :
    sanitize_for_tts 50 (sanitize_for_tts 50 ("(a(b)c)".data)) ≠
      sanitize_for_tts 50 ("(a(b)c)".data) := by decide

/-- C5 (amended): the sanitizer is idempotent on every input whose
sanitized output is clean — made of letters, digits, spaces and the
punctuation `.,!?;:`, with no double spaces, no space before
punctuation, no punctuation glued to a letter, no doubled periods or
commas, a first character that is neither whitespace nor a digit, no
trailing whitespace, and at most the word budget.  On such outputs a
second `sanitize_for_tts` pass is the identity, so
`sanitize_for_tts (sanitize_for_tts x) = sanitize_for_tts x`.  The
unrestricted claim is refuted by the nested-parenthesis
counterexample. -/
theorem sanitize_for_tts_idempotent_on_clean (maxWords : Nat)
    (x : List Char)
    (h : cleanText maxWords (sanitize_for_tts maxWords x) = true) :
    sanitize_for_tts maxWords (sanitize_for_tts maxWords x) =
      sanitize_for_tts maxWords x :=
  sanitize_id_of_clean maxWords (sanitize_for_tts maxWords x) h

theorem sanitize_for_tts_idempotent_on_clean_witness :
    cleanText 50 (sanitize_for_tts 50 ("Hello **world**.".data)) = true ∧
      sanitize_for_tts 50 (sanitize_for_tts 50 ("Hello **world**.".data)) =
        sanitize_for_tts 50 ("Hello **world**.".data) :=
  ⟨by decide, sanitize_for_tts_idempotent_on_clean 50 _ (by decide)⟩

end VoiceSpec
